import Mathlib

/-!
# Verification of the multicats data plane

Shallow embedding of the chunk-distribution program (server image metadata
builder, request listener, chunk dispatcher, client discovery listener,
chunk receiver and chunk assembler) together with proofs relating the code
to its natural-language specification.

Bytes are modelled as `Nat`; machine integers are `Nat` with an explicit
`% 2 ^ 64` wherever u64 wrap-around matters.  Loops whose progress depends
on a positivity side condition are given explicit fuel; every theorem using
such a definition supplies enough fuel for the source's loop.
-/

namespace Multicats

/-! ## Data model (src/src/lib.rs)

`ChunkMetadata { offset: u64, size: usize, hash: u64 }`, and
`ImageMetadata` is an ordered sequence of chunk metadata records.  The
64-bit xxHash is kept abstract: every statement is parametric in the hash
function applied to a chunk's raw bytes. -/

structure ChunkMetadata where
  offset : Nat
  size : Nat
  hash : Nat
deriving Repr, DecidableEq

/-- Modulus of u64 arithmetic. -/
def U64 : Nat := 2 ^ 64

/-! ## Image metadata builder (src/src/bin/server/image.rs)

`compute_image_metadata` reads the file in `chunk_size`-sized reads (a
read on a regular file returns `min chunk_size remaining` bytes), hashes
each buffer and records `(offset, size, hash)` until the position reaches
the file size.  The loop makes progress only when `chunk_size > 0`; the
fuel argument is instantiated with `file.length + 1`, which is enough in
that case. -/

def compute_chunks (hash : List Nat → Nat) (chunkSize : Nat) :
    Nat → Nat → List Nat → List ChunkMetadata
  | 0, _, _ => []
  | _, _, [] => []
  | fuel + 1, pos, b :: bs =>
    let piece := (b :: bs).take chunkSize
    { offset := pos, size := piece.length, hash := hash piece } ::
      compute_chunks hash chunkSize fuel (pos + piece.length) ((b :: bs).drop chunkSize)

def compute_image_metadata (hash : List Nat → Nat) (file : List Nat) (chunkSize : Nat) :
    List ChunkMetadata :=
  compute_chunks hash chunkSize (file.length + 1) 0 file

/-! ## Image size computations on the client (src/src/bin/client/tasks.rs)

`disk_writer` computes the image size as `max (offset + size as u64)` over
the chunks; `metadata_transfer` computes it as the sum of all sizes, both
in u64 arithmetic. -/

/-- Model of `Iterator::max` over an iterator of u64 values. -/
def listMax : List Nat → Option Nat
  | [] => none
  | x :: xs =>
    match listMax xs with
    | none => some x
    | some y => some (max x y)

/-- Model of `Iterator::min`. -/
def listMin : List Nat → Option Nat
  | [] => none
  | x :: xs =>
    match listMin xs with
    | none => some x
    | some y => some (min x y)

/-- src/src/bin/client/tasks.rs, `disk_writer`:
`chunks.iter().map(|chunk| chunk.offset + chunk.size as u64).max()`. -/
def disk_writer_image_size (chunks : List ChunkMetadata) : Option Nat :=
  listMax (chunks.map fun c => (c.offset + c.size) % U64)

/-- src/src/bin/client/tasks.rs, `metadata_transfer`:
`chunks.iter().map(|chunk| chunk.size as u64).sum()`. -/
def metadata_image_size (chunks : List ChunkMetadata) : Nat :=
  chunks.foldl (fun acc c => (acc + c.size) % U64) 0

/-! ## Request listener (src/src/bin/server/tasks/chunk.rs, `request_listener`)

For each id of a decoded `ChunkRequest` the listener warns when
`chunk_id >= state.image.chunks.len()` and then (unconditionally) sends
the id on the dispatcher channel.  The model returns the list of warned
ids and the list of ids actually forwarded on the channel. -/

def process_request (numChunks : Nat) : List Nat → List Nat × List Nat
  | [] => ([], [])
  | id :: rest =>
    let tail := process_request numChunks rest
    (if numChunks ≤ id then id :: tail.1 else tail.1, id :: tail.2)

/-! ## Chunk dispatcher queue (src/src/bin/server/tasks/chunk.rs, `chunk_dispatcher`)

The `BTreeSet<usize>` queue is modelled as a duplicate-free list of ids
(the physical order of the list is irrelevant: only the set operations
`range(ation above)/first/insert/remove` are used, modelled with
`listMin`, membership and erasure). -/

def queue_insert (queue : List Nat) (x : Nat) : List Nat :=
  if x ∈ queue then queue else x :: queue

/-- `queue.range((Excluded(last_id), Unbounded)).next().or_else(|| queue.first())`. -/
def select_next (queue : List Nat) (lastId : Nat) : Option Nat :=
  match listMin (queue.filter fun y => lastId < y) with
  | some x => some x
  | none => listMin queue

/-- One dispatcher iteration after the drain: pick the next id, remove it
from the queue, and make it the new `last_id`. -/
def dispatch_step (queue : List Nat) (lastId : Nat) : Option (Nat × List Nat × Nat) :=
  match select_next queue lastId with
  | some x => some (x, queue.erase x, x)
  | none => none

def dispatch_run : Nat → List Nat → Nat → List Nat
  | 0, _, _ => []
  | n + 1, queue, lastId =>
    match dispatch_step queue lastId with
    | some (x, q, l) => x :: dispatch_run n q l
    | none => []

/-! ## Chunk fragmentation (src/src/bin/server/tasks/chunk.rs, lines 159-174)

`while count < chunk.size { frag_size = (chunk.size - count).min(max_fragment_size); ... }`
emitting `ChunkData { chunk, offset: count, data: chunk_buf[count..count+frag_size] }`.
Progress needs `max_fragment_size > 0`; fuel `chunk.length + 1` suffices then. -/

def fragment_chunk_go (maxFragmentSize : Nat) :
    Nat → Nat → List Nat → List (Nat × List Nat)
  | 0, _, _ => []
  | _, _, [] => []
  | fuel + 1, count, b :: bs =>
    let fragSize := min (b :: bs).length maxFragmentSize
    (count, (b :: bs).take fragSize) ::
      fragment_chunk_go maxFragmentSize fuel (count + fragSize) ((b :: bs).drop fragSize)

def fragment_chunk (maxFragmentSize : Nat) (chunk : List Nat) : List (Nat × List Nat) :=
  fragment_chunk_go maxFragmentSize (chunk.length + 1) 0 chunk

/-! ## Max-fragment-size binary search (src/src/bin/server/tasks/chunk.rs, lines 72-98)

The `ChunkData { chunk: usize::MAX, offset: usize::MAX, data: &buf[0..m] }`
probe is serialized with postcard: each unsigned integer is an LEB128
varint (7 value bits per byte, 10 bytes for `usize::MAX` on a 64-bit
target) and the byte slice is a varint length prefix followed by the raw
bytes.  `postcard::to_slice` into the `u16::MAX`-byte scratch buffer
succeeds iff the encoding fits into 65535 bytes, and the probe then also
requires the encoded length to be at most `max_udp_payload_size`. -/

/-- Byte length of an unsigned LEB128 varint for values below `2 ^ 70`
(postcard's integer wire format): one byte per started group of 7 value
bits, `1 + #{k ∈ [1, 9] : 2 ^ (7 k) ≤ n}`. -/
def varint_size (n : Nat) : Nat :=
  1 + (if 2 ^ 7 ≤ n then 1 else 0) + (if 2 ^ 14 ≤ n then 1 else 0)
    + (if 2 ^ 21 ≤ n then 1 else 0) + (if 2 ^ 28 ≤ n then 1 else 0)
    + (if 2 ^ 35 ≤ n then 1 else 0) + (if 2 ^ 42 ≤ n then 1 else 0)
    + (if 2 ^ 49 ≤ n then 1 else 0) + (if 2 ^ 56 ≤ n then 1 else 0)
    + (if 2 ^ 63 ≤ n then 1 else 0)

def usizeMax : Nat := 2 ^ 64 - 1

/-- Encoded length of `ChunkData { chunk, offset, data }` with an
`dataLen`-byte payload. -/
def chunk_data_encoded_len (chunk offset dataLen : Nat) : Nat :=
  varint_size chunk + varint_size offset + varint_size dataLen + dataLen

/-- The success condition of one probe of the binary search. -/
def probe_ok (maxUdpPayloadSize m : Nat) : Bool :=
  decide (chunk_data_encoded_len usizeMax usizeMax m ≤ 65535)
    && decide (chunk_data_encoded_len usizeMax usizeMax m ≤ maxUdpPayloadSize)

/-- `while r - l > 1 { m = (r - l) / 2 + l; if ok(m) { l = m } else { r = m } }; l`,
with the midpoint `m` inlined.  The loop runs at most `r - l` times, so
that much fuel is always enough. -/
def bsearch_go (ok : Nat → Bool) : Nat → Nat → Nat → Nat
  | 0, l, _ => l
  | fuel + 1, l, r =>
    if 1 < r - l then
      if ok ((r - l) / 2 + l) then bsearch_go ok fuel ((r - l) / 2 + l) r
      else bsearch_go ok fuel l ((r - l) / 2 + l)
    else l

/-- The start-up binary search with `l = u16::MIN`, `r = u16::MAX`. -/
def max_fragment_size (maxUdpPayloadSize : Nat) : Nat :=
  bsearch_go (probe_ok maxUdpPayloadSize) 65535 0 65535

/-! ## Client discovery listener (src/src/bin/client/tasks.rs, `server_discovery`)

Socket addresses keep exactly the attributes the listener inspects:
the address family, whether the address is an IPv6 unicast link-local
address, the scope id, and opaque host/port payloads. -/

structure SocketAddr where
  isIpv6 : Bool
  isLinkLocal : Bool
  scopeId : Nat
  host : Nat
  port : Nat
deriving Repr, DecidableEq

structure ServerDiscovery where
  metadata_socket : SocketAddr
  request_socket : SocketAddr
  transfer_socket : SocketAddr
deriving Repr, DecidableEq

/-- `if let SocketAddr::V6(s) = s && s.ip().is_unicast_link_local() { s.set_scope_id(index) }`. -/
def set_scope (ifIndex : Nat) (s : SocketAddr) : SocketAddr :=
  if s.isIpv6 && s.isLinkLocal then { s with scopeId := ifIndex } else s

def patch_scopes (ifIndex : Nat) (sd : ServerDiscovery) : ServerDiscovery :=
  { metadata_socket := set_scope ifIndex sd.metadata_socket
    request_socket := set_scope ifIndex sd.request_socket
    transfer_socket := set_scope ifIndex sd.transfer_socket }

/-- The acceptance test: all three sockets have the family of the local
unicast address. -/
def family_ok (localIsIpv6 : Bool) (sd : ServerDiscovery) : Bool :=
  (sd.metadata_socket.isIpv6 == localIsIpv6)
    && (sd.request_socket.isIpv6 == localIsIpv6)
    && (sd.transfer_socket.isIpv6 == localIsIpv6)

/-- The receive loop over a stream of datagrams; `none` stands for a
datagram that does not decode as a `ServerDiscovery`. -/
def server_discovery (localIsIpv6 : Bool) (ifIndex : Nat) :
    List (Option ServerDiscovery) → Option ServerDiscovery
  | [] => none
  | none :: rest => server_discovery localIsIpv6 ifIndex rest
  | some sd :: rest =>
    if family_ok localIsIpv6 sd then some (patch_scopes ifIndex sd)
    else server_discovery localIsIpv6 ifIndex rest

/-! ## Chunk receiver assembler map (src/src/bin/client/tasks.rs, lines 179-185)

The `BTreeMap<usize, ChunkAssembler>` is modelled by its ascending key
list; `pop_first` removes the head.  On a fragment for a chunk with no
assembler the receiver runs `while assemblers.len() > 40 { pop_first() }`
and then inserts the new key. -/

def evict_go : Nat → List Nat → List Nat
  | 0, m => m
  | fuel + 1, m => if 40 < m.length then evict_go fuel m.tail else m

def ensure_assembler (assemblerKeys : List Nat) (chunkId : Nat) : List Nat :=
  if chunkId ∈ assemblerKeys then assemblerKeys
  else List.orderedInsert (· ≤ ·) chunkId (evict_go assemblerKeys.length assemblerKeys)

/-! ## Chunk assembler (src/src/bin/client/chunk.rs)

`ChunkAssembler { data: Vec<u8>, map: BTreeSet<(usize, usize)> }`.
The `BTreeSet` of `(start, length)` ranges is modelled by its ascending
list under the lexicographic key order `pairLt`; `range(..x).next_back()`
is the last element below `x` and `range(x..).next()` the first element
not below `x`. -/

structure ChunkAssembler where
  data : List Nat
  map : List (Nat × Nat)
deriving Repr, DecidableEq

def ChunkAssembler.new (chunkSize : Nat) : ChunkAssembler :=
  { data := List.replicate chunkSize 0, map := [] }

/-- The `BTreeSet<(usize, usize)>` key order (lexicographic). -/
def pairLt (a b : Nat × Nat) : Bool :=
  a.1 < b.1 || (a.1 == b.1 && a.2 < b.2)

/-- Set insertion keeping the ascending representation. -/
def map_insert (x : Nat × Nat) : List (Nat × Nat) → List (Nat × Nat)
  | [] => [x]
  | y :: ys =>
    if pairLt y x then y :: map_insert x ys
    else if x == y then y :: ys
    else x :: y :: ys

/-- Set removal (`BTreeSet::remove`); removing an absent element is a no-op. -/
def map_remove (x : Nat × Nat) : List (Nat × Nat) → List (Nat × Nat)
  | [] => []
  | y :: ys => if x == y then ys else y :: map_remove x ys

/-- `self.map.range(..(offset, 0)).next_back().copied().unwrap_or((0, 0))`:
the greatest stored range below `(offset, 0)`, with default `(0, 0)`. -/
def range_before (asm : ChunkAssembler) (offset : Nat) : Nat × Nat :=
  ((asm.map.filter fun p => pairLt p (offset, 0)).getLast?).getD (0, 0)

/-- `self.map.range((offset, 0)..).next().copied().unwrap_or((self.data.len(), 0))`:
the least stored range not below `(offset, 0)`, with default `(data.len(), 0)`. -/
def range_after (asm : ChunkAssembler) (offset : Nat) : Nat × Nat :=
  ((asm.map.filter fun p => !pairLt p (offset, 0)).head?).getD (asm.data.length, 0)

/-- `ChunkAssembler::add_fragment`.  Returns the post-state and a success
flag; on `bail!` the state is returned unmodified, mirroring the source,
which returns before any mutation. -/
def add_fragment (asm : ChunkAssembler) (offset : Nat) (data : List Nat) :
    ChunkAssembler × Bool :=
  let before := range_before asm offset
  let after := range_after asm offset
  if offset < before.1 + before.2 || after.1 < offset + data.length then (asm, false)
  else
    let newData := asm.data.take offset ++ data ++ asm.data.drop (offset + data.length)
    let step1 : (Nat × Nat) × List (Nat × Nat) :=
      if before.1 + before.2 == offset
      then ((before.1, data.length + before.2), map_remove before asm.map)
      else ((offset, data.length), asm.map)
    let step2 : (Nat × Nat) × List (Nat × Nat) :=
      if step1.1.1 + step1.1.2 == after.1
      then ((step1.1.1, step1.1.2 + after.2), map_remove after step1.2)
      else step1
    ({ data := newData, map := map_insert step2.1 step2.2 }, true)

/-- `ChunkAssembler::is_complete`: `map.len() == 1 && *map.first() == (0, data.len())`. -/
def is_complete (asm : ChunkAssembler) : Bool :=
  match asm.map with
  | [r] => r == (0, asm.data.length)
  | _ => false

/-- `ChunkAssembler::complete` panics unless complete; modelled as `Option`. -/
def ChunkAssembler.complete (asm : ChunkAssembler) : Option (List Nat) :=
  if is_complete asm then some asm.data else none

/-- Sequential `add_fragment` calls; stops at the first failure. -/
def add_fragments (asm : ChunkAssembler) : List (Nat × List Nat) → ChunkAssembler × Bool
  | [] => (asm, true)
  | f :: fs =>
    let step := add_fragment asm f.1 f.2
    if step.2 then add_fragments step.1 fs else (step.1, false)

/-! ### Derived notions used to state the assembler claims -/

/-- `i` lies in the (possibly empty) byte range of fragment `f`. -/
def inRange (f : Nat × List Nat) (i : Nat) : Prop :=
  f.1 ≤ i ∧ i < f.1 + f.2.length

/-- Two fragments' ranges intersect. -/
def fragsOverlap (f g : Nat × List Nat) : Prop :=
  max f.1 g.1 < min (f.1 + f.2.length) (g.1 + g.2.length)

/-- A stored `(start, length)` range intersects `[o, o + n)`. -/
def rangesOverlap (r : Nat × Nat) (o n : Nat) : Prop :=
  max r.1 o < min (r.1 + r.2) (o + n)

/-- `i` is covered by some stored range of the assembler. -/
def coveredBy (asm : ChunkAssembler) (i : Nat) : Prop :=
  ∃ r ∈ asm.map, r.1 ≤ i ∧ i < r.1 + r.2

instance (f g : Nat × List Nat) : Decidable (fragsOverlap f g) :=
  inferInstanceAs (Decidable (_ < _))

instance (f : Nat × List Nat) (i : Nat) : Decidable (inRange f i) :=
  inferInstanceAs (Decidable (_ ∧ _))

instance (r : Nat × Nat) (o n : Nat) : Decidable (rangesOverlap r o n) :=
  inferInstanceAs (Decidable (_ < _))

instance (asm : ChunkAssembler) (i : Nat) : Decidable (coveredBy asm i) :=
  inferInstanceAs (Decidable (∃ r ∈ asm.map, _ ∧ _))

/-- Fragments sorted by offset ("offset order"). -/
abbrev fragLe (f g : Nat × List Nat) : Prop := f.1 ≤ g.1

instance : DecidableRel fragLe := fun a b => inferInstanceAs (Decidable (a.1 ≤ b.1))

instance : IsTotal (Nat × List Nat) fragLe := ⟨fun a b => Nat.le_total a.1 b.1⟩

instance : IsTrans (Nat × List Nat) fragLe := ⟨fun _ _ _ h h' => Nat.le_trans h h'⟩

def sortFragments (frags : List (Nat × List Nat)) : List (Nat × List Nat) :=
  frags.insertionSort fragLe

/-- The weak structural invariant of a reachable assembler state: the range
list is ascending in the key order, every range fits in the buffer, and the
ranges are pairwise disjoint with no two of them out of order.  (Ranges of
length zero are reachable, via zero-length fragments.) -/
structure MapInv (size : Nat) (asm : ChunkAssembler) : Prop where
  dataLen : asm.data.length = size
  ordered : asm.map.Pairwise fun a b => pairLt a b = true
  bounded : ∀ r ∈ asm.map, r.1 + r.2 ≤ size
  sep : ∀ a ∈ asm.map, ∀ b ∈ asm.map, a ≠ b → a.1 + a.2 ≤ b.1 ∨ b.1 + b.2 ≤ a.1

/-- The strong invariant, maintained as long as only nonempty fragments are
added: ranges additionally have positive length and are separated by gaps
(maximal-run decomposition of the covered set). -/
structure AsmInv (size : Nat) (asm : ChunkAssembler) : Prop where
  dataLen : asm.data.length = size
  ordered : asm.map.Pairwise fun a b => pairLt a b = true
  bounded : ∀ r ∈ asm.map, r.1 + r.2 ≤ size
  pos : ∀ r ∈ asm.map, 0 < r.2
  sep : ∀ a ∈ asm.map, ∀ b ∈ asm.map, a ≠ b → a.1 + a.2 < b.1 ∨ b.1 + b.2 < a.1

/-! ## Helper lemmas -/

theorem listMin_eq_none {l : List Nat} (h : listMin l = none) : l = [] := by
  cases l with
  | nil => rfl
  | cons a as =>
    simp only [listMin] at h
    cases hm : listMin as <;> rw [hm] at h <;> simp at h

theorem listMin_spec : ∀ {l : List Nat} {x : Nat},
    listMin l = some x → x ∈ l ∧ ∀ y ∈ l, x ≤ y := by
  intro l
  induction l with
  | nil => intro x h; simp [listMin] at h
  | cons a as ih =>
    intro x h
    simp only [listMin] at h
    cases hm : listMin as with
    | none =>
      rw [hm] at h
      obtain rfl : a = x := by simpa using h
      have : as = [] := listMin_eq_none hm
      subst this
      simp
    | some y =>
      rw [hm] at h
      obtain rfl : min a y = x := by simpa using h
      obtain ⟨hy, hall⟩ := ih hm
      constructor
      · rcases Nat.le_total a y with hay | hya
        · simp [Nat.min_eq_left hay]
        · right
          rwa [Nat.min_eq_right hya]
      · intro z hz
        rcases hz with _ | hz
        · exact Nat.min_le_left a y
        · exact Nat.le_trans (Nat.min_le_right a y) (hall z (by assumption))

theorem listMax_spec : ∀ {l : List Nat} {x : Nat},
    listMax l = some x → x ∈ l ∧ ∀ y ∈ l, y ≤ x := by
  intro l
  induction l with
  | nil => intro x h; simp [listMax] at h
  | cons a as ih =>
    intro x h
    simp only [listMax] at h
    cases hm : listMax as with
    | none =>
      rw [hm] at h
      obtain rfl : a = x := by simpa using h
      have : as = [] := by
        cases as with
        | nil => rfl
        | cons b bs =>
          simp only [listMax] at hm
          cases hb : listMax bs <;> rw [hb] at hm <;> simp at hm
      subst this
      simp
    | some y =>
      rw [hm] at h
      obtain rfl : max a y = x := by simpa using h
      obtain ⟨hy, hall⟩ := ih hm
      constructor
      · rcases Nat.le_total a y with hay | hya
        · right
          rwa [Nat.max_eq_right hay]
        · simp [Nat.max_eq_left hya]
      · intro z hz
        rcases hz with _ | hz
        · exact Nat.le_max_left a y
        · exact Nat.le_trans (hall z (by assumption)) (Nat.le_max_right a y)

/-! ## C1: the request listener and out-of-range chunk ids

The source warns on `chunk_id >= state.image.chunks.len()` but the `for`
body has no `continue`: the id is forwarded on the channel regardless,
and the dispatcher then evaluates `state.image.chunks[next]`, an
out-of-bounds index. -/

/-- C1: with a 3-chunk image, a `ChunkRequest` holding the out-of-range id 3
is warned about, yet 3 is still forwarded to the dispatcher queue channel —
the listener forwards every decoded id, in-range or not. -/
theorem process_request_forwards_out_of_range :
    (process_request 3 [3]).1 = [3] ∧ (process_request 3 [3]).2 = [3] := by
  decide

/-! ## C7: round-robin selection in the chunk dispatcher -/

/-- C7: after the drain, the dispatcher serves the smallest queued id
strictly greater than `last_id`, or the smallest queued id overall when no
greater one exists; the chosen id is removed from the queue and becomes the
new `last_id`.  In particular, from queue `{0, 1, 2}` and `last_id = 0` the
service order is `1, 2, 0`. -/
theorem dispatch_step_spec (queue : List Nat) (lastId x : Nat) (q' : List Nat) (l' : Nat)
    (h : dispatch_step queue lastId = some (x, q', l')) :
    (x ∈ queue ∧ q' = queue.erase x ∧ l' = x
      ∧ ((lastId < x ∧ ∀ y ∈ queue, lastId < y → x ≤ y)
          ∨ ((∀ y ∈ queue, y ≤ lastId) ∧ ∀ y ∈ queue, x ≤ y)))
    ∧ dispatch_run 3 [0, 1, 2] 0 = [1, 2, 0] := by
  refine ⟨?_, by decide⟩
  unfold dispatch_step at h
  cases hsel : select_next queue lastId with
  | none => rw [hsel] at h; cases h
  | some z =>
    rw [hsel] at h
    injection h with h
    have hx : x = z := (congrArg Prod.fst h).symm
    have hq : q' = queue.erase z := (congrArg (fun t => t.2.1) h).symm
    have hl : l' = z := (congrArg (fun t => t.2.2) h).symm
    rw [hx, hq, hl]
    unfold select_next at hsel
    cases hf : listMin (queue.filter fun y => lastId < y) with
    | some w =>
      rw [hf] at hsel
      obtain rfl : w = z := by simpa using hsel
      obtain ⟨hmem, hle⟩ := listMin_spec hf
      have hx := List.mem_filter.mp hmem
      refine ⟨hx.1, rfl, rfl, Or.inl ⟨by simpa using hx.2, ?_⟩⟩
      intro y hy hlast
      exact hle y (List.mem_filter.mpr ⟨hy, by simpa using hlast⟩)
    | none =>
      rw [hf] at hsel
      obtain ⟨hmem, hle⟩ := listMin_spec hsel
      have hempty := listMin_eq_none hf
      have hnone : ∀ y ∈ queue, y ≤ lastId := by
        intro y hy
        by_contra hgt
        have : y ∈ queue.filter fun y => lastId < y :=
          List.mem_filter.mpr ⟨hy, by simpa using Nat.lt_of_not_le (fun hc => hgt hc)⟩
        rw [hempty] at this
        simp at this
      exact ⟨hmem, rfl, rfl, Or.inr ⟨hnone, hle⟩⟩

/-- Witness for C7 at the spec's S2 scenario. -/
theorem dispatch_step_spec_witness :
    dispatch_step [0, 1, 2] 0 = some (1, [0, 2], 1)
      ∧ (1 ∈ [0, 1, 2] ∧ [0, 2] = List.erase [0, 1, 2] 1 ∧ 1 = 1
          ∧ ((0 < 1 ∧ ∀ y ∈ [0, 1, 2], 0 < y → 1 ≤ y)
              ∨ ((∀ y ∈ [0, 1, 2], y ≤ 0) ∧ ∀ y ∈ [0, 1, 2], 1 ≤ y)))
      ∧ dispatch_run 3 [0, 1, 2] 0 = [1, 2, 0] :=
  ⟨by decide, dispatch_step_spec [0, 1, 2] 0 1 [0, 2] 1 (by decide)⟩

/-! ## C2: the assembler-map cap in the chunk receiver

The eviction loop is `while assemblers.len() > 40`, so with exactly 40
entries nothing is evicted and the insertion brings the map to 41. -/

/-- C2 counterexample: with the assembler map holding exactly the 40 keys
`0..39`, a fragment for the fresh chunk 40 evicts nothing — the smallest
key 0 stays — and the map grows to 41 entries, exceeding the claimed cap
of 40. -/
theorem ensure_assembler_at_forty :
    ensure_assembler (List.range 40) 40 = List.range 41
      ∧ (ensure_assembler (List.range 40) 40).length = 41 := by
  decide

theorem evict_go_eq : ∀ (fuel : Nat) (m : List Nat), m.length - 40 ≤ fuel →
    evict_go fuel m = m.drop (m.length - 40) := by
  intro fuel
  induction fuel with
  | zero =>
    intro m h
    have : m.length - 40 = 0 := Nat.le_zero.mp h
    rw [evict_go, this, List.drop_zero]
  | succ fuel ih =>
    intro m h
    rw [evict_go]
    by_cases hlen : 40 < m.length
    · rw [if_pos hlen]
      have htail : m.tail.length - 40 ≤ fuel := by
        rw [List.length_tail]
        omega
      rw [ih m.tail htail, ← List.drop_one, List.drop_drop]
      simp only [List.length_drop]
      congr 1
      omega
    · rw [if_neg hlen]
      have : m.length - 40 = 0 := by omega
      rw [this, List.drop_zero]

/-- C2 (amended): eviction only happens when the map holds more than 40
entries; on a fragment for a fresh chunk the receiver drops the smallest
keys until at most 40 remain and then inserts the new key, so the map
never exceeds 41 entries (and reaches 41 whenever it was full). -/
theorem ensure_assembler_spec (m : List Nat) (k : Nat)
    (hsort : List.Sorted (· ≤ ·) m) (hk : k ∉ m) :
    ensure_assembler m k = List.orderedInsert (· ≤ ·) k (m.drop (m.length - 40))
    ∧ (ensure_assembler m k).length = min m.length 40 + 1
    ∧ (ensure_assembler m k).length ≤ 41
    ∧ (∀ x ∈ m, x ∉ ensure_assembler m k → ∀ y ∈ m, y ∈ ensure_assembler m k → x ≤ y) := by
  have heq : ensure_assembler m k
      = List.orderedInsert (· ≤ ·) k (m.drop (m.length - 40)) := by
    rw [ensure_assembler, if_neg hk, evict_go_eq m.length m (Nat.sub_le _ _)]
  have hlen : (ensure_assembler m k).length = min m.length 40 + 1 := by
    rw [heq, List.orderedInsert_length, List.length_drop]
    omega
  refine ⟨heq, hlen, by omega, ?_⟩
  intro x hx hxout y hy hyin
  rw [heq, List.mem_orderedInsert] at hxout hyin
  push_neg at hxout
  have hxtake : x ∈ m.take (m.length - 40) := by
    conv at hx => rw [← List.take_append_drop (m.length - 40) m]
    rcases List.mem_append.mp hx with h | h
    · exact h
    · exact absurd h hxout.2
  have hydrop : y ∈ m.drop (m.length - 40) := by
    rcases hyin with rfl | h
    · exact absurd hy hk
    · exact h
  have := List.pairwise_append.mp
    (by rw [List.take_append_drop]; exact hsort : ((m.take (m.length - 40)) ++ (m.drop (m.length - 40))).Pairwise (· ≤ ·))
  exact this.2.2 x hxtake y hydrop

/-- Witness for the amended C2 theorem: a full map of 41 assemblers, a fresh
chunk id; the smallest key is evicted and the size stays at 41. -/
theorem ensure_assembler_spec_witness :
    List.Sorted (· ≤ ·) (List.range 41) ∧ 99 ∉ List.range 41
      ∧ (ensure_assembler (List.range 41) 99
          = List.orderedInsert (· ≤ ·) 99 ((List.range 41).drop 1)
        ∧ (ensure_assembler (List.range 41) 99).length = min 41 40 + 1
        ∧ (ensure_assembler (List.range 41) 99).length ≤ 41
        ∧ (∀ x ∈ List.range 41, x ∉ ensure_assembler (List.range 41) 99 →
            ∀ y ∈ List.range 41, y ∈ ensure_assembler (List.range 41) 99 → x ≤ y)) := by
  refine ⟨by decide, by decide, ?_⟩
  have h := ensure_assembler_spec (List.range 41) 99 (by decide) (by decide)
  simpa using h

/-! ## C4: the client discovery listener family check -/

theorem set_scope_isIpv6 (i : Nat) (s : SocketAddr) : (set_scope i s).isIpv6 = s.isIpv6 := by
  unfold set_scope
  split <;> rfl

/-- C4: the discovery listener keeps reading datagrams; it returns only a
decoded `ServerDiscovery` whose three sockets all have the local unicast
family, and it skips non-decoding datagrams as well as decodable records
with a mismatched family, continuing with the rest of the stream. -/
theorem server_discovery_spec (localIsIpv6 : Bool) (ifIndex : Nat) :
    (∀ (inputs : List (Option ServerDiscovery)) (sd : ServerDiscovery),
        server_discovery localIsIpv6 ifIndex inputs = some sd →
          sd.metadata_socket.isIpv6 = localIsIpv6
          ∧ sd.request_socket.isIpv6 = localIsIpv6
          ∧ sd.transfer_socket.isIpv6 = localIsIpv6)
    ∧ (∀ inputs, server_discovery localIsIpv6 ifIndex (none :: inputs)
        = server_discovery localIsIpv6 ifIndex inputs)
    ∧ (∀ d inputs, family_ok localIsIpv6 d = false →
        server_discovery localIsIpv6 ifIndex (some d :: inputs)
          = server_discovery localIsIpv6 ifIndex inputs)
    ∧ (∀ d inputs, family_ok localIsIpv6 d = true →
        server_discovery localIsIpv6 ifIndex (some d :: inputs)
          = some (patch_scopes ifIndex d)) := by
  refine ⟨?_, ?_, ?_, ?_⟩
  · intro inputs
    induction inputs with
    | nil => intro sd h; simp [server_discovery] at h
    | cons head rest ih =>
      intro sd h
      cases head with
      | none => exact ih sd (by simpa [server_discovery] using h)
      | some d =>
        by_cases hfam : family_ok localIsIpv6 d = true
        · rw [server_discovery, if_pos hfam] at h
          obtain rfl : patch_scopes ifIndex d = sd := by simpa using h
          have h3 := hfam
          simp only [family_ok, Bool.and_eq_true, beq_iff_eq] at h3
          simp [patch_scopes, set_scope_isIpv6]
          exact ⟨h3.1.1, h3.1.2, h3.2⟩
        · rw [server_discovery, if_neg hfam] at h
          exact ih sd h
  · intro inputs
    rfl
  · intro d inputs hfam
    rw [server_discovery, if_neg (by simp [hfam])]
  · intro d inputs hfam
    rw [server_discovery, if_pos hfam]

/-- Witness for C4: a concrete IPv6 record is accepted (with its link-local
scope ids patched), and a mismatched IPv4 record before it is skipped. -/
theorem server_discovery_spec_witness :
    (family_ok true ⟨⟨true, true, 0, 7, 1⟩, ⟨true, false, 0, 7, 2⟩, ⟨true, true, 0, 7, 3⟩⟩ = true
      → server_discovery true 5
          [some ⟨⟨true, true, 0, 7, 1⟩, ⟨true, false, 0, 7, 2⟩, ⟨true, true, 0, 7, 3⟩⟩]
          = some (patch_scopes 5
              ⟨⟨true, true, 0, 7, 1⟩, ⟨true, false, 0, 7, 2⟩, ⟨true, true, 0, 7, 3⟩⟩))
    ∧ family_ok true ⟨⟨true, true, 0, 7, 1⟩, ⟨true, false, 0, 7, 2⟩, ⟨true, true, 0, 7, 3⟩⟩ = true
    ∧ server_discovery true 5
        [some ⟨⟨true, true, 0, 7, 1⟩, ⟨true, false, 0, 7, 2⟩, ⟨true, true, 0, 7, 3⟩⟩]
        = some ⟨⟨true, true, 5, 7, 1⟩, ⟨true, false, 0, 7, 2⟩, ⟨true, true, 5, 7, 3⟩⟩ :=
  ⟨(server_discovery_spec true 5).2.2.2 _ [], by decide, by decide⟩

/-! ## C9: fragmentation of a served chunk -/

theorem take_min_length (l : List Nat) (m : Nat) : l.take (min l.length m) = l.take m := by
  rcases Nat.le_total l.length m with h | h
  · rw [Nat.min_eq_left h, List.take_length, List.take_of_length_le h]
  · rw [Nat.min_eq_right h]

theorem drop_min_length (l : List Nat) (m : Nat) : l.drop (min l.length m) = l.drop m := by
  rcases Nat.le_total l.length m with h | h
  · rw [Nat.min_eq_left h, List.drop_length, List.drop_eq_nil_of_le h]
  · rw [Nat.min_eq_right h]

theorem ceil_div_succ (L m : Nat) (hm : 0 < m) (hL : 0 < L) :
    (L + m - 1) / m = (L - m + m - 1) / m + 1 := by
  rcases Nat.le_total L m with h | h
  · have h1 : L - m = 0 := by omega
    rw [h1]
    have h2 : (0 + m - 1) / m = 0 := Nat.div_eq_of_lt (by omega)
    rw [h2]
    exact Nat.div_eq_of_lt_le (by omega) (by omega)
  · have h1 : L + m - 1 = (L - m + m - 1) + m := by omega
    rw [h1, Nat.add_div_right _ hm]

theorem fragment_chunk_go_closed (m : Nat) (hm : 0 < m) :
    ∀ (fuel count : Nat) (rest : List Nat), rest.length < fuel →
      fragment_chunk_go m fuel count rest
        = (List.range ((rest.length + m - 1) / m)).map
            (fun i => (count + i * m, (rest.drop (i * m)).take m)) := by
  intro fuel
  induction fuel with
  | zero => intro count rest h; exact absurd h (Nat.not_lt_zero _)
  | succ fuel ih =>
    intro count rest h
    cases rest with
    | nil =>
      simp [fragment_chunk_go, Nat.div_eq_of_lt (show m - 1 < m by omega)]
    | cons b bs =>
      have hlen : 0 < (b :: bs).length := by simp
      rw [fragment_chunk_go]
      rw [ceil_div_succ _ m hm hlen, List.range_succ_eq_map, List.map_cons, List.map_map]
      have hdrop : ((b :: bs).drop ((b :: bs).length - m)).length < fuel + 1 := by
        simp only [List.length_drop]
        omega
      have htail : ((b :: bs).drop m).length < fuel := by
        simp only [List.length_drop, List.length_cons] at h ⊢
        omega
      rw [take_min_length, drop_min_length]
      rw [ih (count + min (b :: bs).length m) ((b :: bs).drop m) htail]
      simp only [List.length_drop]
      congr 1
      · simp
      · apply List.map_congr_left
        intro i hi
        have hmle : m ≤ (b :: bs).length := by
          by_contra hlt
          have hz : (b :: bs).length - m = 0 := by omega
          rw [hz] at hi
          have hdz : (0 + m - 1) / m = 0 := Nat.div_eq_of_lt (by omega)
          rw [hdz] at hi
          simp at hi
        have hmin : min (b :: bs).length m = m := Nat.min_eq_right hmle
        rw [hmin]
        simp only [Function.comp_apply]
        rw [List.drop_drop]
        have h1 : count + m + i * m = count + Nat.succ i * m := by
          rw [Nat.succ_mul, Nat.add_assoc, Nat.add_comm m (i * m)]
        have h2 : m + i * m = Nat.succ i * m := by
          rw [Nat.succ_mul, Nat.add_comm]
        rw [h1, h2]

theorem fragment_chunk_go_flatten (m : Nat) (hm : 0 < m) :
    ∀ (fuel count : Nat) (rest : List Nat), rest.length < fuel →
      ((fragment_chunk_go m fuel count rest).map Prod.snd).flatten = rest := by
  intro fuel
  induction fuel with
  | zero => intro count rest h; exact absurd h (Nat.not_lt_zero _)
  | succ fuel ih =>
    intro count rest h
    cases rest with
    | nil => simp [fragment_chunk_go]
    | cons b bs =>
      rw [fragment_chunk_go]
      simp only [List.map_cons, List.flatten_cons]
      have htail : ((b :: bs).drop (min (b :: bs).length m)).length < fuel := by
        simp only [List.length_drop, List.length_cons] at h ⊢
        have : 0 < min (b :: bs).length m := by
          simp only [List.length_cons]
          omega
        omega
      rw [ih _ _ htail, List.take_append_drop]

/-- C9: when the dispatcher serves a chunk, fragment offsets are strictly
increasing and start at 0, each payload has length
`min (remaining bytes) max_fragment_size` (hence at most
`max_fragment_size`) and is the corresponding slice of the chunk, and the
payloads concatenated in emission order are exactly the chunk. -/
theorem fragment_chunk_spec (m : Nat) (chunk : List Nat) (hm : 0 < m) :
    ((fragment_chunk m chunk).map Prod.fst).Pairwise (· < ·)
    ∧ (chunk ≠ [] → (fragment_chunk m chunk).head?.map Prod.fst = some 0)
    ∧ (∀ f ∈ fragment_chunk m chunk,
        f.2.length = min (chunk.length - f.1) m
        ∧ f.2.length ≤ m
        ∧ f.2 = (chunk.drop f.1).take m)
    ∧ ((fragment_chunk m chunk).map Prod.snd).flatten = chunk := by
  have hclosed := fragment_chunk_go_closed m hm (chunk.length + 1) 0 chunk (by omega)
  rw [fragment_chunk, hclosed]
  refine ⟨?_, ?_, ?_, ?_⟩
  · rw [List.map_map]
    apply (List.pairwise_lt_range _).map
    intro a b hab
    simp only [Function.comp, Nat.zero_add]
    exact Nat.mul_lt_mul_of_lt_of_le hab (Nat.le_refl m) hm
  · intro hne
    have hL : 0 < chunk.length := List.length_pos.mpr hne
    have hn : 0 < (chunk.length + m - 1) / m := (Nat.one_le_div_iff hm).mpr (by omega)
    obtain ⟨n, hn'⟩ : ∃ n, (chunk.length + m - 1) / m = n + 1 :=
      ⟨_, (Nat.succ_pred_eq_of_pos hn).symm⟩
    rw [hn', List.range_succ_eq_map]
    simp
  · intro f hf
    obtain ⟨i, hi, rfl⟩ := List.mem_map.mp hf
    refine ⟨?_, ?_, ?_⟩
    · simp only [List.length_take, List.length_drop, Nat.zero_add]
      exact Nat.min_comm _ _
    · simp [List.length_take]
    · simp
  · rw [← hclosed]
    exact fragment_chunk_go_flatten m hm (chunk.length + 1) 0 chunk (by omega)

/-! ## C10: the two client-side image size computations agree -/

theorem listMax_cons (x : Nat) (xs : List Nat) (y : Nat) (h : listMax xs = some y) :
    listMax (x :: xs) = some (max x y) := by
  rw [listMax, h]

theorem contiguous_max : ∀ (cs : List ChunkMetadata) (o : Nat),
    (cs.map ChunkMetadata.offset).head? = some o →
    List.Chain' (fun a b => a.offset + a.size = b.offset) cs →
    listMax (cs.map fun c => c.offset + c.size)
        = some (o + (cs.map ChunkMetadata.size).sum)
    ∧ ∀ c ∈ cs, c.offset + c.size ≤ o + (cs.map ChunkMetadata.size).sum := by
  intro cs
  induction cs with
  | nil => intro o h _; simp at h
  | cons c cs ih =>
    intro o h hch
    obtain rfl : c.offset = o := by simpa using h
    cases cs with
    | nil => simp [listMax]
    | cons d ds =>
      have hd : c.offset + c.size = d.offset := (List.chain'_cons.mp hch).1
      obtain ⟨hmax, hbound⟩ := ih d.offset (by simp) (List.chain'_cons.mp hch).2
      have hsum : d.offset + ((d :: ds).map ChunkMetadata.size).sum
          = c.offset + ((c :: d :: ds).map ChunkMetadata.size).sum := by
        simp only [List.map_cons, List.sum_cons]
        omega
      constructor
      · rw [List.map_cons, listMax_cons _ _ _ hmax]
        have hle : c.offset + c.size ≤ d.offset + ((d :: ds).map ChunkMetadata.size).sum := by
          rw [hd]
          exact Nat.le_add_right _ _
        rw [Nat.max_eq_right hle, hsum]
      · intro e he
        rcases he with _ | he
        · rw [← hsum, hd]
          exact Nat.le_add_right _ _
        · rw [← hsum]
          exact hbound e (by assumption)

/-- C10: for metadata satisfying the contiguity invariant (first offset 0,
each offset + size equal to the next offset) whose total size fits in u64,
the disk writer's image size (max over chunks of offset + size) equals the
metadata fetch's image size (sum of the chunk sizes). -/
theorem image_size_agree (chunks : List ChunkMetadata)
    (h0 : (chunks.map ChunkMetadata.offset).head? = some 0)
    (hchain : List.Chain' (fun a b => a.offset + a.size = b.offset) chunks)
    (hfit : (chunks.map ChunkMetadata.size).sum < U64) :
    disk_writer_image_size chunks = some (metadata_image_size chunks) := by
  obtain ⟨hmax, hbound⟩ := contiguous_max chunks 0 h0 hchain
  have hmapeq : (chunks.map fun c => (c.offset + c.size) % U64)
      = chunks.map fun c => c.offset + c.size := by
    apply List.map_congr_left
    intro c hc
    exact Nat.mod_eq_of_lt (lt_of_le_of_lt (by simpa using hbound c hc) hfit)
  have hfold : ∀ (cs : List ChunkMetadata) (acc : Nat),
      acc + (cs.map ChunkMetadata.size).sum < U64 →
      cs.foldl (fun a c => (a + c.size) % U64) acc
        = acc + (cs.map ChunkMetadata.size).sum := by
    intro cs
    induction cs with
    | nil => intro acc _; simp
    | cons c cs ihc =>
      intro acc hacc
      simp only [List.map_cons, List.sum_cons] at hacc
      simp only [List.foldl_cons]
      rw [Nat.mod_eq_of_lt (by omega), ihc (acc + c.size) (by omega)]
      simp only [List.map_cons, List.sum_cons]
      omega
  rw [disk_writer_image_size, hmapeq, hmax, metadata_image_size,
    hfold chunks 0 (by simpa using hfit)]

/-- Witness for C10 at the spec's S1 metadata (12 bytes, chunk size 5). -/
theorem image_size_agree_witness :
    (([⟨0, 5, 11⟩, ⟨5, 5, 22⟩, ⟨10, 2, 33⟩] : List ChunkMetadata).map
        ChunkMetadata.offset).head? = some 0
    ∧ List.Chain' (fun a b => a.offset + a.size = b.offset)
        ([⟨0, 5, 11⟩, ⟨5, 5, 22⟩, ⟨10, 2, 33⟩] : List ChunkMetadata)
    ∧ (([⟨0, 5, 11⟩, ⟨5, 5, 22⟩, ⟨10, 2, 33⟩] : List ChunkMetadata).map
        ChunkMetadata.size).sum < U64
    ∧ disk_writer_image_size [⟨0, 5, 11⟩, ⟨5, 5, 22⟩, ⟨10, 2, 33⟩]
        = some (metadata_image_size [⟨0, 5, 11⟩, ⟨5, 5, 22⟩, ⟨10, 2, 33⟩]) :=
  ⟨by simp, by simp [List.chain'_cons], by simp [U64],
    image_size_agree _ (by simp) (by simp [List.chain'_cons]) (by simp [U64])⟩

/-- Witness for C9: chunk `[1,2,3,4,5]` with max fragment size 2. -/
theorem fragment_chunk_spec_witness :
    0 < 2
    ∧ (((fragment_chunk 2 [1, 2, 3, 4, 5]).map Prod.fst).Pairwise (· < ·)
      ∧ ([1, 2, 3, 4, 5] ≠ ([] : List Nat) →
          (fragment_chunk 2 [1, 2, 3, 4, 5]).head?.map Prod.fst = some 0)
      ∧ (∀ f ∈ fragment_chunk 2 [1, 2, 3, 4, 5],
          f.2.length = min ([1, 2, 3, 4, 5].length - f.1) 2
          ∧ f.2.length ≤ 2
          ∧ f.2 = (([1, 2, 3, 4, 5] : List Nat).drop f.1).take 2)
      ∧ ((fragment_chunk 2 [1, 2, 3, 4, 5]).map Prod.snd).flatten = [1, 2, 3, 4, 5]) :=
  ⟨by decide, fragment_chunk_spec 2 [1, 2, 3, 4, 5] (by decide)⟩

/-! ## C3: the start-up binary search for the max fragment size -/

theorem threshold_mono (T : Nat) {a b : Nat} (h : a ≤ b) :
    (if T ≤ a then 1 else 0) ≤ (if T ≤ b then 1 else 0) := by
  by_cases hT : T ≤ a
  · rw [if_pos hT, if_pos (Nat.le_trans hT h)]
  · rw [if_neg hT]
    split <;> omega

theorem varint_size_mono {a b : Nat} (h : a ≤ b) : varint_size a ≤ varint_size b := by
  unfold varint_size
  refine Nat.add_le_add (Nat.add_le_add (Nat.add_le_add (Nat.add_le_add (Nat.add_le_add
    (Nat.add_le_add (Nat.add_le_add (Nat.add_le_add (Nat.add_le_add (Nat.le_refl 1)
      (threshold_mono _ h)) (threshold_mono _ h)) (threshold_mono _ h))
        (threshold_mono _ h)) (threshold_mono _ h)) (threshold_mono _ h))
          (threshold_mono _ h)) (threshold_mono _ h)) (threshold_mono _ h)

theorem chunk_data_encoded_len_mono {a b : Nat} (h : a ≤ b) :
    chunk_data_encoded_len usizeMax usizeMax a ≤ chunk_data_encoded_len usizeMax usizeMax b := by
  unfold chunk_data_encoded_len
  have := varint_size_mono h
  omega

theorem probe_ok_mono (maxUdp : Nat) {a b : Nat} (h : a ≤ b)
    (hb : probe_ok maxUdp b = true) : probe_ok maxUdp a = true := by
  simp only [probe_ok, Bool.and_eq_true, decide_eq_true_eq] at hb ⊢
  exact ⟨Nat.le_trans (chunk_data_encoded_len_mono h) hb.1,
    Nat.le_trans (chunk_data_encoded_len_mono h) hb.2⟩

/-- Encoding a 65535-byte payload never fits the 65535-byte probe buffer:
its worst-case headers alone take 23 bytes. -/
theorem probe_ok_top (maxUdp : Nat) : probe_ok maxUdp 65535 = false := by
  have h : chunk_data_encoded_len usizeMax usizeMax 65535 = 65558 := by decide
  simp [probe_ok, h]

theorem bsearch_go_spec (ok : Nat → Bool) :
    ∀ (fuel l r : Nat), r - l ≤ fuel → l < r → ok l = true → ok r = false →
      ok (bsearch_go ok fuel l r) = true
      ∧ ok (bsearch_go ok fuel l r + 1) = false
      ∧ l ≤ bsearch_go ok fuel l r ∧ bsearch_go ok fuel l r < r := by
  intro fuel
  induction fuel with
  | zero => intro l r hf hlr _ _; omega
  | succ fuel ih =>
    intro l r hf hlr hl hr
    rw [bsearch_go]
    by_cases hgap : 1 < r - l
    · rw [if_pos hgap]
      have hml : l < (r - l) / 2 + l := by omega
      have hmr : (r - l) / 2 + l < r := by omega
      by_cases hok : ok ((r - l) / 2 + l) = true
      · rw [if_pos hok]
        have h := ih ((r - l) / 2 + l) r (by omega) hmr hok hr
        exact ⟨h.1, h.2.1, by omega, h.2.2.2⟩
      · rw [if_neg hok]
        have hok' : ok ((r - l) / 2 + l) = false := Bool.eq_false_iff.mpr hok
        have h := ih l ((r - l) / 2 + l) (by omega) hml hl hok'
        exact ⟨h.1, h.2.1, h.2.2.1, by omega⟩
    · rw [if_neg hgap]
      have hr1 : r = l + 1 := by omega
      subst hr1
      exact ⟨hl, hr, Nat.le_refl l, by omega⟩

/-- C3 counterexample: with `max_udp_payload_size = 20` no payload length
satisfies the bound (the minimal encoding already takes 21 bytes), yet the
binary search returns 0, whose encoding does not fit — so the search does
not return "the largest `m` whose encoding is at most
`max_udp_payload_size` bytes", which would not exist here. -/
theorem max_fragment_size_no_fit :
    max_fragment_size 20 = 0
    ∧ probe_ok 20 0 = false
    ∧ ¬ chunk_data_encoded_len usizeMax usizeMax (max_fragment_size 20) ≤ 20 := by
  refine ⟨by decide, by decide, ?_⟩
  have h : max_fragment_size 20 = 0 := by decide
  rw [h]
  decide

/-- C3 (amended): whenever some payload fits (the 21-byte minimal encoding
passes the probe), the start-up binary search returns the largest
`m ∈ [0, 65534]` for which encoding `ChunkData` with maximal headers and an
`m`-byte payload fits both the 65535-byte probe buffer and
`max_udp_payload_size`; `m = 65535` itself is never probed or returned. -/
theorem max_fragment_size_spec (maxUdp : Nat) (hfit : probe_ok maxUdp 0 = true) :
    probe_ok maxUdp (max_fragment_size maxUdp) = true
    ∧ max_fragment_size maxUdp ≤ 65534
    ∧ ∀ m, m ≤ 65535 → probe_ok maxUdp m = true → m ≤ max_fragment_size maxUdp := by
  have h := bsearch_go_spec (probe_ok maxUdp) 65535 0 65535 (by omega) (by omega)
    hfit (probe_ok_top maxUdp)
  rw [max_fragment_size]
  refine ⟨h.1, by omega, ?_⟩
  intro m _ hpm
  by_contra hgt
  push_neg at hgt
  have hmono := probe_ok_mono maxUdp
    (show bsearch_go (probe_ok maxUdp) 65535 0 65535 + 1 ≤ m by omega) hpm
  rw [h.2.1] at hmono
  cases hmono

/-- Witness for the amended C3 theorem at `max_udp_payload_size = 1500`. -/
theorem max_fragment_size_spec_witness :
    probe_ok 1500 0 = true
    ∧ (probe_ok 1500 (max_fragment_size 1500) = true
      ∧ max_fragment_size 1500 ≤ 65534
      ∧ ∀ m, m ≤ 65535 → probe_ok 1500 m = true → m ≤ max_fragment_size 1500) :=
  ⟨by decide, max_fragment_size_spec 1500 (by decide)⟩

/-! ## C8: the image metadata builder -/

theorem ceil_div_eq_pred_div_succ (L S : Nat) (hS : 0 < S) (hL : 0 < L) :
    (L + S - 1) / S = (L - 1) / S + 1 := by
  rw [show L + S - 1 = (L - 1) + S by omega, Nat.add_div_right _ hS]

/-- Floor-division bounds with the product kept explicit. -/
theorem pred_div_bounds (L S : Nat) (hS : 0 < S) (hL : 0 < L) :
    S * ((L - 1) / S) + 1 ≤ L ∧ L ≤ S * ((L - 1) / S) + S := by
  have hdm := Nat.div_add_mod (L - 1) S
  have hmod : (L - 1) % S < S := Nat.mod_lt _ hS
  omega

theorem nonlast_chunk_size (L S i : Nat) (hS : 0 < S) (h : i + 1 < (L + S - 1) / S) :
    min S (L - i * S) = S := by
  have hL : 0 < L := by
    by_contra hc
    have : L = 0 := by omega
    subst this
    rw [Nat.div_eq_of_lt (by omega)] at h
    omega
  rw [ceil_div_eq_pred_div_succ L S hS hL] at h
  obtain ⟨h1, _⟩ := pred_div_bounds L S hS hL
  have hiq : i + 1 ≤ (L - 1) / S := by omega
  have hmul : (i + 1) * S ≤ ((L - 1) / S) * S := Nat.mul_le_mul_right S hiq
  rw [Nat.succ_mul] at hmul
  rw [Nat.mul_comm] at h1
  apply Nat.min_eq_left
  omega

theorem last_chunk_size (L S : Nat) (hS : 0 < S) (hL : 0 < L) :
    min S (L - ((L + S - 1) / S - 1) * S)
      = if L % S = 0 then S else L % S := by
  rw [ceil_div_eq_pred_div_succ L S hS hL, Nat.add_sub_cancel]
  obtain ⟨h1, h2⟩ := pred_div_bounds L S hS hL
  rw [Nat.mul_comm ((L - 1) / S) S]
  have hr : L - S * ((L - 1) / S) = L - S * ((L - 1) / S) := rfl
  rcases Nat.lt_or_ge (L - S * ((L - 1) / S)) S with hlt | hge
  · have hmod : L % S = L - S * ((L - 1) / S) := by
      have hL' : S * ((L - 1) / S) + (L - S * ((L - 1) / S)) = L := by omega
      calc L % S = (S * ((L - 1) / S) + (L - S * ((L - 1) / S))) % S := by rw [hL']
        _ = (L - S * ((L - 1) / S)) % S := Nat.mul_add_mod _ _ _
        _ = L - S * ((L - 1) / S) := Nat.mod_eq_of_lt hlt
    have hne : L % S ≠ 0 := by omega
    rw [if_neg hne, hmod]
    exact Nat.min_eq_right (by omega)
  · have heq : L - S * ((L - 1) / S) = S := by omega
    have hLS : L = S * ((L - 1) / S + 1) := by
      rw [Nat.mul_succ]
      omega
    have hmod : L % S = 0 := by
      rw [hLS, Nat.mul_comm]
      exact Nat.mul_mod_left _ _
    rw [if_pos hmod, heq]
    exact Nat.min_eq_left (Nat.le_refl S)

theorem compute_chunks_closed (hash : List Nat → Nat) (S : Nat) (hS : 0 < S) :
    ∀ (fuel pos : Nat) (rest : List Nat), rest.length < fuel →
      compute_chunks hash S fuel pos rest
        = (List.range ((rest.length + S - 1) / S)).map
            (fun i =>
              { offset := pos + i * S
                size := min S (rest.length - i * S)
                hash := hash ((rest.drop (i * S)).take S) }) := by
  intro fuel
  induction fuel with
  | zero => intro pos rest h; exact absurd h (Nat.not_lt_zero _)
  | succ fuel ih =>
    intro pos rest h
    cases rest with
    | nil =>
      simp [compute_chunks, Nat.div_eq_of_lt (show S - 1 < S by omega)]
    | cons b bs =>
      have hlen : 0 < (b :: bs).length := by simp
      rw [compute_chunks]
      rw [ceil_div_succ _ S hS hlen, List.range_succ_eq_map, List.map_cons, List.map_map]
      have htail : ((b :: bs).drop S).length < fuel := by
        simp only [List.length_drop, List.length_cons] at h ⊢
        omega
      rw [ih (pos + ((b :: bs).take S).length) ((b :: bs).drop S) htail]
      simp only [List.length_drop, List.length_take]
      congr 1
      · simp
      · apply List.map_congr_left
        intro i hi
        have hmle : S ≤ (b :: bs).length := by
          by_contra hlt
          have hz : (b :: bs).length - S = 0 := by omega
          rw [hz] at hi
          have hdz : (0 + S - 1) / S = 0 := Nat.div_eq_of_lt (by omega)
          rw [hdz] at hi
          simp at hi
        have hmin : min S (b :: bs).length = S := Nat.min_eq_left hmle
        rw [hmin]
        simp only [Function.comp_apply]
        have h1 : pos + S + i * S = pos + Nat.succ i * S := by
          rw [Nat.succ_mul, Nat.add_assoc, Nat.add_comm S (i * S)]
        have h2 : S + i * S = Nat.succ i * S := by
          rw [Nat.succ_mul, Nat.add_comm]
        have h3 : (b :: bs).length - S - i * S = (b :: bs).length - Nat.succ i * S := by
          rw [Nat.sub_sub, h2]
        rw [List.drop_drop, h1, h2, h3]

/-- C8: for a file of length `L` and chunk size `S > 0`, the metadata
builder emits exactly `⌈L / S⌉` chunks; offsets are contiguous starting at
0 (`offset i = i * S`, and each offset + size is the next offset); every
chunk but the last has size `S`; the last has size `L % S` (or `S` when
`S` divides `L`); and each hash field is the hash of that chunk's raw
bytes. -/
theorem compute_image_metadata_spec (hash : List Nat → Nat) (file : List Nat) (S : Nat)
    (hS : 0 < S) :
    (compute_image_metadata hash file S).length = (file.length + S - 1) / S
    ∧ (∀ i c, (compute_image_metadata hash file S)[i]? = some c →
        c.offset = i * S
        ∧ c.size = min S (file.length - i * S)
        ∧ (i + 1 < (compute_image_metadata hash file S).length → c.size = S)
        ∧ (i + 1 = (compute_image_metadata hash file S).length →
            c.size = if file.length % S = 0 then S else file.length % S)
        ∧ c.hash = hash ((file.drop c.offset).take c.size))
    ∧ (∀ i c c', (compute_image_metadata hash file S)[i]? = some c →
        (compute_image_metadata hash file S)[i + 1]? = some c' →
        c.offset + c.size = c'.offset) := by
  have hclosed := compute_chunks_closed hash S hS (file.length + 1) 0 file (by omega)
  rw [compute_image_metadata, hclosed]
  have hget : ∀ i : Nat,
      ((List.range ((file.length + S - 1) / S)).map
        (fun i =>
          ({ offset := 0 + i * S
             size := min S (file.length - i * S)
             hash := hash ((file.drop (i * S)).take S) } : ChunkMetadata)))[i]?
      = if i < (file.length + S - 1) / S then
          some { offset := 0 + i * S
                 size := min S (file.length - i * S)
                 hash := hash ((file.drop (i * S)).take S) }
        else none := by
    intro i
    by_cases hlt : i < (file.length + S - 1) / S
    · simp [List.getElem?_map, List.getElem?_range hlt, hlt]
    · rw [if_neg hlt, List.getElem?_eq_none]
      simp only [List.length_map, List.length_range]
      omega
  have hlen : ((List.range ((file.length + S - 1) / S)).map
      (fun i =>
        ({ offset := 0 + i * S
           size := min S (file.length - i * S)
           hash := hash ((file.drop (i * S)).take S) } : ChunkMetadata))).length
      = (file.length + S - 1) / S := by
    simp
  refine ⟨hlen, ?_, ?_⟩
  · intro i c hc
    rw [hget i] at hc
    by_cases hlt : i < (file.length + S - 1) / S
    · rw [if_pos hlt] at hc
      obtain rfl : _ = c := Option.some.inj hc
      refine ⟨by simp, by simp, ?_, ?_, ?_⟩
      · intro hnl
        rw [hlen] at hnl
        simp only []
        exact nonlast_chunk_size file.length S i hS hnl
      · intro hl
        rw [hlen] at hl
        have hL : 0 < file.length := by
          by_contra hc0
          have h0 : file.length = 0 := by omega
          rw [h0] at hl
          rw [Nat.div_eq_of_lt (by omega)] at hl
          omega
        have : i = (file.length + S - 1) / S - 1 := by omega
        subst this
        simp only []
        exact last_chunk_size file.length S hS hL
      · simp only [Nat.zero_add]
        congr 1
        rw [Nat.min_comm,
          show file.length - i * S = (file.drop (i * S)).length by simp [List.length_drop],
          take_min_length]
    · rw [if_neg hlt] at hc
      cases hc
  · intro i c c' hc hc'
    rw [hget i] at hc
    rw [hget (i + 1)] at hc'
    by_cases hlt : i + 1 < (file.length + S - 1) / S
    · rw [if_pos hlt] at hc'
      rw [if_pos (by omega)] at hc
      obtain rfl : _ = c := Option.some.inj hc
      obtain rfl : _ = c' := Option.some.inj hc'
      simp only [Nat.zero_add]
      rw [nonlast_chunk_size file.length S i hS hlt, Nat.succ_mul]
    · rw [if_neg hlt] at hc'
      cases hc'

/-- Witness for C8 on a 7-byte file with chunk size 3 and the summing hash. -/
theorem compute_image_metadata_spec_witness :
    (0 < 3
    ∧ (compute_image_metadata (fun l => l.sum) [1, 2, 3, 4, 5, 6, 7] 3).length
        = ([1, 2, 3, 4, 5, 6, 7].length + 3 - 1) / 3)
    ∧ compute_image_metadata (fun l => l.sum) [1, 2, 3, 4, 5, 6, 7] 3
        = [⟨0, 3, 6⟩, ⟨3, 3, 15⟩, ⟨6, 1, 7⟩] :=
  ⟨⟨by decide,
      (compute_image_metadata_spec (fun l => l.sum) [1, 2, 3, 4, 5, 6, 7] 3 (by decide)).1⟩,
    by decide⟩

/-! ## Chunk assembler: order and set-representation lemmas -/

theorem pairLt_iff (a b : Nat × Nat) :
    pairLt a b = true ↔ a.1 < b.1 ∨ (a.1 = b.1 ∧ a.2 < b.2) := by
  simp [pairLt]

theorem pairLt_zero_iff (p : Nat × Nat) (o : Nat) : pairLt p (o, 0) = true ↔ p.1 < o := by
  rw [pairLt_iff]
  constructor
  · rintro (h | ⟨_, h2⟩)
    · exact h
    · exact absurd h2 (Nat.not_lt_zero _)
  · exact fun h => Or.inl h

theorem not_pairLt_zero_iff (p : Nat × Nat) (o : Nat) :
    (!pairLt p (o, 0)) = true ↔ o ≤ p.1 := by
  rw [Bool.not_eq_true']
  constructor
  · intro h
    by_contra hc
    rw [(pairLt_zero_iff p o).mpr (by omega)] at h
    cases h
  · intro h
    rw [← Bool.not_eq_true, pairLt_zero_iff]
    omega

theorem pairLt_ne {a b : Nat × Nat} (h : pairLt a b = true) : a ≠ b := by
  rw [pairLt_iff] at h
  intro hc
  subst hc
  omega

theorem pairLt_trans {a b c : Nat × Nat} (h1 : pairLt a b = true) (h2 : pairLt b c = true) :
    pairLt a c = true := by
  rw [pairLt_iff] at h1 h2 ⊢
  omega

theorem pairLt_total {a b : Nat × Nat} (h : a ≠ b) :
    pairLt a b = true ∨ pairLt b a = true := by
  rw [pairLt_iff, pairLt_iff]
  have : ¬(a.1 = b.1 ∧ a.2 = b.2) := fun hc => h (Prod.ext hc.1 hc.2)
  omega

theorem mem_map_insert (x y : Nat × Nat) : ∀ (l : List (Nat × Nat)),
    y ∈ map_insert x l ↔ y = x ∨ y ∈ l := by
  intro l
  induction l with
  | nil => simp [map_insert]
  | cons z zs ih =>
    rw [map_insert]
    by_cases hzx : pairLt z x = true
    · rw [if_pos hzx]
      simp only [List.mem_cons, ih]
      tauto
    · rw [if_neg hzx]
      by_cases hxz : (x == z) = true
      · rw [if_pos hxz]
        have hx : x = z := by simpa using hxz
        subst hx
        simp only [List.mem_cons]
        tauto
      · rw [if_neg hxz]
        simp only [List.mem_cons]

theorem pairwise_map_insert (x : Nat × Nat) : ∀ (l : List (Nat × Nat)),
    l.Pairwise (fun a b => pairLt a b = true) →
    (map_insert x l).Pairwise (fun a b => pairLt a b = true) := by
  intro l
  induction l with
  | nil => intro _; simp [map_insert]
  | cons z zs ih =>
    intro h
    have hz : ∀ y ∈ zs, pairLt z y = true := fun y hy => List.rel_of_pairwise_cons h hy
    have htail : zs.Pairwise (fun a b => pairLt a b = true) := List.Pairwise.of_cons h
    rw [map_insert]
    by_cases hzx : pairLt z x = true
    · rw [if_pos hzx]
      refine List.Pairwise.cons ?_ (ih htail)
      intro y hy
      rcases (mem_map_insert x y zs).mp hy with rfl | hmem
      · exact hzx
      · exact hz y hmem
    · rw [if_neg hzx]
      by_cases hxz : (x == z) = true
      · rw [if_pos hxz]
        exact h
      · rw [if_neg hxz]
        have hne : x ≠ z := by simpa using hxz
        have hxltz : pairLt x z = true := by
          rcases pairLt_total hne with h' | h'
          · exact h'
          · exact absurd h' hzx
        refine List.Pairwise.cons ?_ h
        intro y hy
        rcases List.mem_cons.mp hy with rfl | hy'
        · exact hxltz
        · exact pairLt_trans hxltz (hz y hy')

theorem map_remove_sublist (x : Nat × Nat) : ∀ (l : List (Nat × Nat)),
    List.Sublist (map_remove x l) l := by
  intro l
  induction l with
  | nil => simp [map_remove]
  | cons y ys ih =>
    rw [map_remove]
    by_cases hxy : (x == y) = true
    · rw [if_pos hxy]
      exact List.sublist_cons_self y ys
    · rw [if_neg hxy]
      exact List.Sublist.cons₂ y ih

theorem mem_of_mem_map_remove {x y : Nat × Nat} {l : List (Nat × Nat)}
    (h : y ∈ map_remove x l) : y ∈ l :=
  (map_remove_sublist x l).mem h

theorem mem_map_remove_of_ne {x y : Nat × Nat} : ∀ {l : List (Nat × Nat)},
    y ∈ l → y ≠ x → y ∈ map_remove x l := by
  intro l
  induction l with
  | nil => intro h _; cases h
  | cons z zs ih =>
    intro hy hne
    rw [map_remove]
    by_cases hxz : (x == z) = true
    · rw [if_pos hxz]
      have hx : x = z := by simpa using hxz
      subst hx
      rcases List.mem_cons.mp hy with rfl | hy'
      · exact absurd rfl hne
      · exact hy'
    · rw [if_neg hxz]
      rcases List.mem_cons.mp hy with rfl | hy'
      · exact List.mem_cons_self _ _
      · exact List.mem_cons_of_mem _ (ih hy' hne)

theorem not_mem_map_remove (x : Nat × Nat) : ∀ (l : List (Nat × Nat)),
    l.Nodup → x ∉ map_remove x l := by
  intro l
  induction l with
  | nil => intro _; simp [map_remove]
  | cons y ys ih =>
    intro hnd
    rw [map_remove]
    by_cases hxy : (x == y) = true
    · rw [if_pos hxy]
      have hx : x = y := by simpa using hxy
      subst hx
      exact (List.nodup_cons.mp hnd).1
    · rw [if_neg hxy]
      intro hc
      rcases List.mem_cons.mp hc with rfl | hc'
      · exact absurd (by simp) hxy
      · exact ih (List.nodup_cons.mp hnd).2 hc'

theorem map_remove_of_not_mem {x : Nat × Nat} : ∀ {l : List (Nat × Nat)},
    x ∉ l → map_remove x l = l := by
  intro l
  induction l with
  | nil => intro _; rfl
  | cons y ys ih =>
    intro hx
    rw [map_remove, if_neg (by simpa using fun h : x = y => hx (h ▸ List.mem_cons_self _ _)),
      ih fun h => hx (List.mem_cons_of_mem _ h)]

theorem ordered_nodup {l : List (Nat × Nat)}
    (h : l.Pairwise fun a b => pairLt a b = true) : l.Nodup :=
  h.imp fun hab => pairLt_ne hab

theorem mem_of_getDLast {α : Type} : ∀ {l : List α} {y : α}, l.getLast? = some y → y ∈ l := by
  intro l
  induction l with
  | nil => intro y h; cases h
  | cons a as ih =>
    intro y h
    cases as with
    | nil =>
      obtain rfl : a = y := by simpa using h
      exact List.mem_cons_self _ _
    | cons b bs =>
      rw [List.getLast?_cons_cons] at h
      exact List.mem_cons_of_mem _ (ih h)

theorem pairwise_getDLast {α : Type} {R : α → α → Prop} : ∀ {l : List α} {y : α},
    l.Pairwise R → l.getLast? = some y → ∀ x ∈ l, x = y ∨ R x y := by
  intro l
  induction l with
  | nil => intro y _ _ x hx; cases hx
  | cons a as ih =>
    intro y hp hl x hx
    cases as with
    | nil =>
      obtain rfl : a = y := by simpa using hl
      rcases List.mem_cons.mp hx with rfl | hx'
      · exact Or.inl rfl
      · cases hx'
    | cons b bs =>
      rw [List.getLast?_cons_cons] at hl
      have hy : y ∈ b :: bs := mem_of_getDLast hl
      rcases List.mem_cons.mp hx with rfl | hx'
      · exact Or.inr (List.rel_of_pairwise_cons hp hy)
      · exact ih (List.Pairwise.of_cons hp) hl x hx'

theorem pairwise_head {α : Type} {R : α → α → Prop} {l : List α} {y : α}
    (hp : l.Pairwise R) (hl : l.head? = some y) : ∀ x ∈ l, x = y ∨ R y x := by
  cases l with
  | nil => cases hl
  | cons a as =>
    obtain rfl : a = y := by simpa using hl
    intro x hx
    rcases List.mem_cons.mp hx with rfl | hx'
    · exact Or.inl rfl
    · exact Or.inr (List.rel_of_pairwise_cons hp hx')

/-- Characterization of `range(..(offset, 0)).next_back()`. -/
theorem range_before_spec (asm : ChunkAssembler) (o : Nat)
    (hord : asm.map.Pairwise fun a b => pairLt a b = true) :
    (range_before asm o = (0, 0) ∧ ∀ r ∈ asm.map, ¬r.1 < o)
    ∨ (range_before asm o ∈ asm.map ∧ (range_before asm o).1 < o
        ∧ ∀ r ∈ asm.map, r.1 < o →
            r = range_before asm o ∨ pairLt r (range_before asm o) = true) := by
  rw [range_before]
  cases hfl : (asm.map.filter fun p => pairLt p (o, 0)).getLast? with
  | none =>
    left
    have hnil : (asm.map.filter fun p => pairLt p (o, 0)) = [] :=
      List.getLast?_eq_none_iff.mp hfl
    refine ⟨rfl, ?_⟩
    intro r hr hro
    have hmem : r ∈ asm.map.filter fun p => pairLt p (o, 0) :=
      List.mem_filter.mpr ⟨hr, (pairLt_zero_iff r o).mpr hro⟩
    rw [hnil] at hmem
    cases hmem
  | some y =>
    right
    simp only [Option.getD_some]
    have hymem := mem_of_getDLast hfl
    have hy := List.mem_filter.mp hymem
    refine ⟨hy.1, (pairLt_zero_iff y o).mp hy.2, ?_⟩
    intro r hr hro
    exact pairwise_getDLast (hord.filter _) hfl r
      (List.mem_filter.mpr ⟨hr, (pairLt_zero_iff r o).mpr hro⟩)

/-- Characterization of `range((offset, 0)..).next()`. -/
theorem range_after_spec (asm : ChunkAssembler) (o : Nat)
    (hord : asm.map.Pairwise fun a b => pairLt a b = true) :
    (range_after asm o = (asm.data.length, 0) ∧ ∀ r ∈ asm.map, r.1 < o)
    ∨ (range_after asm o ∈ asm.map ∧ o ≤ (range_after asm o).1
        ∧ ∀ r ∈ asm.map, o ≤ r.1 →
            r = range_after asm o ∨ pairLt (range_after asm o) r = true) := by
  rw [range_after]
  cases hfl : (asm.map.filter fun p => !pairLt p (o, 0)).head? with
  | none =>
    left
    have hnil : (asm.map.filter fun p => !pairLt p (o, 0)) = [] :=
      List.head?_eq_none_iff.mp hfl
    refine ⟨rfl, ?_⟩
    intro r hr
    by_contra hro
    have hmem : r ∈ asm.map.filter fun p => !pairLt p (o, 0) :=
      List.mem_filter.mpr ⟨hr, (not_pairLt_zero_iff r o).mpr (by omega)⟩
    rw [hnil] at hmem
    cases hmem
  | some y =>
    right
    simp only [Option.getD_some]
    have hymem : y ∈ asm.map.filter fun p => !pairLt p (o, 0) := by
      cases hc : asm.map.filter fun p => !pairLt p (o, 0) with
      | nil => rw [hc] at hfl; cases hfl
      | cons z zs =>
        rw [hc, List.head?_cons] at hfl
        obtain rfl : z = y := Option.some.inj hfl
        exact List.mem_cons_self _ _
    have hy := List.mem_filter.mp hymem
    refine ⟨hy.1, (not_pairLt_zero_iff y o).mp hy.2, ?_⟩
    intro r hr hro
    exact pairwise_head (hord.filter _) hfl r
      (List.mem_filter.mpr ⟨hr, (not_pairLt_zero_iff r o).mpr hro⟩)
/-! ## C6: rejection of out-of-bounds and overlapping fragments -/

theorem add_fragment_of_reject (asm : ChunkAssembler) (offset : Nat) (bytes : List Nat)
    (h : offset < (range_before asm offset).1 + (range_before asm offset).2
      ∨ (range_after asm offset).1 < offset + bytes.length) :
    add_fragment asm offset bytes = (asm, false) := by
  have hcond : (decide (offset < (range_before asm offset).1 + (range_before asm offset).2)
      || decide ((range_after asm offset).1 < offset + bytes.length)) = true := by
    rcases h with h | h <;> simp [h]
  simp only [add_fragment]
  rw [if_pos hcond]

/-- C6: `add_fragment(offset, bytes)` fails whenever
`offset + bytes.len() > size` or `[offset, offset + bytes.len())`
intersects an already-stored range, and on failure the assembler (buffer
and range set) is returned unchanged — the source bails out before any
mutation, so retransmitted duplicates change nothing. -/
theorem add_fragment_rejects (size : Nat) (asm : ChunkAssembler) (offset : Nat)
    (bytes : List Nat) (hinv : MapInv size asm)
    (hbad : size < offset + bytes.length
      ∨ ∃ r ∈ asm.map, rangesOverlap r offset bytes.length) :
    add_fragment asm offset bytes = (asm, false) := by
  refine add_fragment_of_reject asm offset bytes ?_
  rcases hbad with hsize | ⟨r, hr, hro⟩
  · right
    rcases range_after_spec asm offset hinv.ordered with ⟨heq, _⟩ | ⟨hmem, _, _⟩
    · have h1 : (range_after asm offset).1 = asm.data.length := by rw [heq]
      have h2 := hinv.dataLen
      omega
    · have hb := hinv.bounded _ hmem
      omega
  · unfold rangesOverlap at hro
    have hposr : 0 < r.2 := by omega
    rcases Nat.lt_or_ge r.1 offset with hro1 | hro1
    · left
      rcases range_before_spec asm offset hinv.ordered with ⟨_, hall⟩ | ⟨hmem, hblt, hmaxim⟩
      · exact absurd hro1 (hall r hr)
      · rcases hmaxim r hr hro1 with heq | hlt
        · rw [← heq]
          omega
        · have hsep := hinv.sep r hr _ hmem (pairLt_ne hlt)
          rw [pairLt_iff] at hlt
          omega
    · right
      rcases range_after_spec asm offset hinv.ordered with ⟨_, hall⟩ | ⟨hmem, hage, hminim⟩
      · have := hall r hr
        omega
      · rcases hminim r hr hro1 with heq | hlt
        · rw [← heq]
          omega
        · have hsep := hinv.sep _ hmem r hr (pairLt_ne hlt)
          rw [pairLt_iff] at hlt
          omega

/-- Witness for C6: an assembler with bytes 0..1 covered rejects the
overlapping fragment at offset 1 and is left unchanged. -/
theorem add_fragment_rejects_witness :
    MapInv 5 ⟨[9, 9, 0, 0, 0], [(0, 2)]⟩
    ∧ add_fragment ⟨[9, 9, 0, 0, 0], [(0, 2)]⟩ 1 [7]
        = (⟨[9, 9, 0, 0, 0], [(0, 2)]⟩, false) :=
  ⟨⟨by decide, by decide, by decide, by decide⟩,
    add_fragment_rejects 5 ⟨[9, 9, 0, 0, 0], [(0, 2)]⟩ 1 [7]
      ⟨by decide, by decide, by decide, by decide⟩
      (Or.inr ⟨(0, 2), by decide, by decide⟩)⟩

/-! ## C5: successful assembly of non-overlapping fragments -/

theorem write_data_props (d : List Nat) (o : Nat) (bs : List Nat)
    (hb : o + bs.length ≤ d.length) :
    (d.take o ++ bs ++ d.drop (o + bs.length)).length = d.length
    ∧ (∀ j, j < bs.length →
        (d.take o ++ bs ++ d.drop (o + bs.length))[o + j]? = bs[j]?)
    ∧ (∀ i, ¬(o ≤ i ∧ i < o + bs.length) →
        (d.take o ++ bs ++ d.drop (o + bs.length))[i]? = d[i]?) := by
  have htake : (d.take o).length = o := by
    rw [List.length_take]
    omega
  have hto : (d.take o ++ bs).length = o + bs.length := by
    rw [List.length_append, htake]
  refine ⟨?_, ?_, ?_⟩
  · rw [List.length_append, hto, List.length_drop]
    omega
  · intro j hj
    rw [List.getElem?_append_left (by rw [hto]; omega),
      List.getElem?_append_right (by rw [htake]; omega), htake]
    congr 1
    omega
  · intro i hi
    rcases Nat.lt_or_ge i o with hio | hio
    · rw [List.getElem?_append_left (by rw [hto]; omega),
        List.getElem?_append_left (by rw [htake]; omega)]
      rw [List.getElem?_take]
      simp [hio]
    · have hin : o + bs.length ≤ i := by omega
      rw [List.getElem?_append_right (by rw [hto]; omega), hto, List.getElem?_drop]
      congr 1
      omega

theorem assembled_props (size : Nat) (asm : ChunkAssembler) (o : Nat) (bs : List Nat)
    (hinv : AsmInv size asm) (hn : 0 < bs.length) (hbound : o + bs.length ≤ size)
    (F : Nat × Nat) (m2 : List (Nat × Nat))
    (hFpos : 0 < F.2) (hFbound : F.1 + F.2 ≤ size)
    (hm2sub : List.Sublist m2 asm.map)
    (hm2mem : ∀ r ∈ asm.map, r ∈ m2 ∨ (F.1 ≤ r.1 ∧ r.1 + r.2 ≤ F.1 + F.2))
    (hFsep : ∀ r ∈ m2, r.1 + r.2 < F.1 ∨ F.1 + F.2 < r.1)
    (hFcov : ∀ i, F.1 ≤ i → i < F.1 + F.2 →
        coveredBy asm i ∨ (o ≤ i ∧ i < o + bs.length))
    (hfrag : F.1 ≤ o ∧ o + bs.length ≤ F.1 + F.2) :
    AsmInv size
      ⟨asm.data.take o ++ bs ++ asm.data.drop (o + bs.length), map_insert F m2⟩
    ∧ ∀ i,
        coveredBy ⟨asm.data.take o ++ bs ++ asm.data.drop (o + bs.length), map_insert F m2⟩ i
          ↔ coveredBy asm i ∨ (o ≤ i ∧ i < o + bs.length) := by
  have hdlen : o + bs.length ≤ asm.data.length := by rw [hinv.dataLen]; exact hbound
  obtain ⟨hwl, _, _⟩ := write_data_props asm.data o bs hdlen
  have hord2 : m2.Pairwise fun a b => pairLt a b = true := hinv.ordered.sublist hm2sub
  constructor
  · refine ⟨by rw [hwl, hinv.dataLen], pairwise_map_insert F m2 hord2, ?_, ?_, ?_⟩
    · intro r hr
      rcases (mem_map_insert F r m2).mp hr with rfl | hr'
      · exact hFbound
      · exact hinv.bounded r (hm2sub.mem hr')
    · intro r hr
      rcases (mem_map_insert F r m2).mp hr with rfl | hr'
      · exact hFpos
      · exact hinv.pos r (hm2sub.mem hr')
    · intro a ha b hb hne
      rcases (mem_map_insert F a m2).mp ha with haF | ha' <;>
        rcases (mem_map_insert F b m2).mp hb with hbF | hb'
      · exact absurd (haF.trans hbF.symm) hne
      · rw [haF]
        rcases hFsep b hb' with h | h
        · exact Or.inr h
        · exact Or.inl h
      · rw [hbF]
        rcases hFsep a ha' with h | h
        · exact Or.inl h
        · exact Or.inr h
      · exact hinv.sep a (hm2sub.mem ha') b (hm2sub.mem hb') hne
  · intro i
    constructor
    · rintro ⟨r, hr, hir⟩
      rcases (mem_map_insert F r m2).mp hr with rfl | hr'
      · exact hFcov i hir.1 hir.2
      · exact Or.inl ⟨r, hm2sub.mem hr', hir⟩
    · rintro (⟨r, hr, hir⟩ | hif)
      · rcases hm2mem r hr with hr' | habs
        · exact ⟨r, (mem_map_insert F r m2).mpr (Or.inr hr'), hir⟩
        · exact ⟨F, (mem_map_insert F F m2).mpr (Or.inl rfl), by omega⟩
      · exact ⟨F, (mem_map_insert F F m2).mpr (Or.inl rfl), by omega⟩

theorem left_sep_merged {size : Nat} {asm : ChunkAssembler} {o : Nat}
    (hinv : AsmInv size asm)
    (hBend : (range_before asm o).1 + (range_before asm o).2 = o)
    {r : Nat × Nat} (hr : r ∈ asm.map) (hrL : r.1 + r.2 ≤ o)
    (hrne : r ≠ range_before asm o) :
    r.1 + r.2 < (range_before asm o).1 := by
  have hposr := hinv.pos r hr
  have hr1 : r.1 < o := by omega
  rcases range_before_spec asm o hinv.ordered with ⟨_, hall⟩ | ⟨hmem, hblt, hmax⟩
  · exact absurd hr1 (hall r hr)
  · rcases hmax r hr hr1 with heq | hlt
    · exact absurd heq hrne
    · have hsep := hinv.sep r hr _ hmem (pairLt_ne hlt)
      rw [pairLt_iff] at hlt
      omega

theorem left_sep_unmerged {size : Nat} {asm : ChunkAssembler} {o : Nat}
    (hinv : AsmInv size asm)
    (hBend : (range_before asm o).1 + (range_before asm o).2 ≠ o)
    (hBle : (range_before asm o).1 + (range_before asm o).2 ≤ o)
    {r : Nat × Nat} (hr : r ∈ asm.map) (hrL : r.1 + r.2 ≤ o) :
    r.1 + r.2 < o := by
  have hposr := hinv.pos r hr
  have hr1 : r.1 < o := by omega
  rcases range_before_spec asm o hinv.ordered with ⟨_, hall⟩ | ⟨hmem, hblt, hmax⟩
  · exact absurd hr1 (hall r hr)
  · rcases hmax r hr hr1 with heq | hlt
    · have h1 : r.1 + r.2 = (range_before asm o).1 + (range_before asm o).2 := by rw [heq]
      omega
    · have hsep := hinv.sep r hr _ hmem (pairLt_ne hlt)
      rw [pairLt_iff] at hlt
      omega

theorem right_sep_merged {size : Nat} {asm : ChunkAssembler} {o : Nat}
    (hinv : AsmInv size asm)
    {r : Nat × Nat} (hr : r ∈ asm.map) (hro : o ≤ r.1)
    (hrne : r ≠ range_after asm o) :
    (range_after asm o).1 + (range_after asm o).2 < r.1 := by
  have hposr := hinv.pos r hr
  rcases range_after_spec asm o hinv.ordered with ⟨_, hall⟩ | ⟨hmem, hale, hmin⟩
  · exact absurd (hall r hr) (by omega)
  · rcases hmin r hr hro with heq | hlt
    · exact absurd heq hrne
    · have hsep := hinv.sep _ hmem r hr (pairLt_ne hlt)
      rw [pairLt_iff] at hlt
      omega

theorem right_sep_unmerged {size : Nat} {asm : ChunkAssembler} {o n : Nat}
    (hinv : AsmInv size asm)
    (hAne : (range_after asm o).1 ≠ o + n)
    (hAge : o + n ≤ (range_after asm o).1)
    {r : Nat × Nat} (hr : r ∈ asm.map) (hrR : o + n ≤ r.1) :
    o + n < r.1 := by
  have hposr := hinv.pos r hr
  rcases range_after_spec asm o hinv.ordered with ⟨_, hall⟩ | ⟨hmem, hale, hmin⟩
  · exact absurd (hall r hr) (by omega)
  · have hposA := hinv.pos _ hmem
    rcases hmin r hr (by omega) with heq | hlt
    · have h1 : r.1 = (range_after asm o).1 := by rw [heq]
      omega
    · have hsep := hinv.sep _ hmem r hr (pairLt_ne hlt)
      rw [pairLt_iff] at hlt
      omega

theorem add_fragment_success {size : Nat} {asm : ChunkAssembler} {o : Nat} {bs : List Nat}
    (hinv : AsmInv size asm) (hne : bs ≠ [])
    (hbound : o + bs.length ≤ size)
    (hdisj : ∀ i, coveredBy asm i → ¬(o ≤ i ∧ i < o + bs.length)) :
    (add_fragment asm o bs).2 = true
    ∧ AsmInv size (add_fragment asm o bs).1
    ∧ (∀ i, coveredBy (add_fragment asm o bs).1 i
        ↔ (coveredBy asm i ∨ (o ≤ i ∧ i < o + bs.length)))
    ∧ (∀ j, j < bs.length → (add_fragment asm o bs).1.data[o + j]? = bs[j]?)
    ∧ (∀ i, ¬(o ≤ i ∧ i < o + bs.length) →
        (add_fragment asm o bs).1.data[i]? = asm.data[i]?) := by
  have hn : 0 < bs.length := List.length_pos.mpr hne
  have hnd : asm.map.Nodup := ordered_nodup hinv.ordered
  have hdlen : o + bs.length ≤ asm.data.length := by rw [hinv.dataLen]; exact hbound
  obtain ⟨hwl, hw1, hw2⟩ := write_data_props asm.data o bs hdlen
  have hrdisj : ∀ r ∈ asm.map, r.1 + r.2 ≤ o ∨ o + bs.length ≤ r.1 := by
    intro r hr
    by_contra hc
    push_neg at hc
    have hposr := hinv.pos r hr
    exact hdisj (max r.1 o) ⟨r, hr, by omega⟩ ⟨by omega, by omega⟩
  have hBle : (range_before asm o).1 + (range_before asm o).2 ≤ o := by
    rcases range_before_spec asm o hinv.ordered with ⟨heq, _⟩ | ⟨hmem, hblt, _⟩
    · rw [heq]
      exact Nat.zero_le o
    · rcases hrdisj _ hmem with h | h
      · exact h
      · have := hinv.pos _ hmem
        omega
  have hAge : o + bs.length ≤ (range_after asm o).1 := by
    rcases range_after_spec asm o hinv.ordered with ⟨heq, _⟩ | ⟨hmem, hale, _⟩
    · rw [heq]
      show o + bs.length ≤ asm.data.length
      omega
    · rcases hrdisj _ hmem with h | h
      · have := hinv.pos _ hmem
        omega
      · exact h
  have hcond : (decide (o < (range_before asm o).1 + (range_before asm o).2)
      || decide ((range_after asm o).1 < o + bs.length)) = false := by
    simp only [Bool.or_eq_false_iff, decide_eq_false_iff_not]
    omega
  by_cases hb : (range_before asm o).1 + (range_before asm o).2 = o
  · by_cases ha : o + bs.length = (range_after asm o).1
    · -- merge with both neighbours
      have hb' : ((range_before asm o).1 + (range_before asm o).2 == o) = true := by
        simp [hb]
      have ha' : ((range_before asm o).1 + (bs.length + (range_before asm o).2)
          == (range_after asm o).1) = true := by
        simp only [beq_iff_eq]
        omega
      have hm2sub : List.Sublist
          (map_remove (range_after asm o) (map_remove (range_before asm o) asm.map))
          asm.map :=
        List.Sublist.trans (map_remove_sublist _ _) (map_remove_sublist _ _)
      have hndB : (map_remove (range_before asm o) asm.map).Nodup :=
        hnd.sublist (map_remove_sublist _ _)
      have hsurvive : ∀ r ∈ map_remove (range_after asm o)
            (map_remove (range_before asm o) asm.map),
          r ∈ asm.map ∧ r ≠ range_before asm o ∧ r ≠ range_after asm o := by
        intro r hr
        have hrB := mem_of_mem_map_remove hr
        refine ⟨mem_of_mem_map_remove hrB, ?_, ?_⟩
        · intro hc
          rw [hc] at hrB
          exact not_mem_map_remove _ _ hnd hrB
        · intro hc
          rw [hc] at hr
          exact not_mem_map_remove _ _ hndB hr
      have hprops := assembled_props size asm o bs hinv hn hbound
        ((range_before asm o).1,
          bs.length + (range_before asm o).2 + (range_after asm o).2)
        (map_remove (range_after asm o) (map_remove (range_before asm o) asm.map))
        (by omega)
        (by
          show (range_before asm o).1
              + (bs.length + (range_before asm o).2 + (range_after asm o).2) ≤ size
          rcases range_after_spec asm o hinv.ordered with ⟨heqA, _⟩ | ⟨hmemA, _, _⟩
          · have h1 : (range_after asm o).1 = asm.data.length := by rw [heqA]
            have h2 : (range_after asm o).2 = 0 := by rw [heqA]
            have h3 := hinv.dataLen
            omega
          · have := hinv.bounded _ hmemA
            omega)
        hm2sub
        (by
          intro r hr
          by_cases hrB : r = range_before asm o
          · right
            rw [hrB]
            constructor
            · exact Nat.le_refl _
            · show (range_before asm o).1 + (range_before asm o).2
                ≤ (range_before asm o).1
                  + (bs.length + (range_before asm o).2 + (range_after asm o).2)
              omega
          · by_cases hrA : r = range_after asm o
            · right
              rw [hrA]
              constructor
              · show (range_before asm o).1 ≤ (range_after asm o).1
                omega
              · show (range_after asm o).1 + (range_after asm o).2
                  ≤ (range_before asm o).1
                    + (bs.length + (range_before asm o).2 + (range_after asm o).2)
                omega
            · exact Or.inl (mem_map_remove_of_ne (mem_map_remove_of_ne hr hrB) hrA))
        (by
          intro r hr
          obtain ⟨hrm, hrB, hrA⟩ := hsurvive r hr
          rcases hrdisj r hrm with hL | hR
          · left
            exact left_sep_merged hinv hb hrm hL hrB
          · right
            have := right_sep_merged hinv hrm (by omega) hrA
            show (range_before asm o).1
                + (bs.length + (range_before asm o).2 + (range_after asm o).2) < r.1
            omega)
        (by
          intro i hi1 hi2
          rcases Nat.lt_or_ge i o with hio | hio
          · rcases range_before_spec asm o hinv.ordered with ⟨heqB, _⟩ | ⟨hmemB, _, _⟩
            · have h1 : (range_before asm o).1 = 0 := by rw [heqB]
              have h2 : (range_before asm o).2 = 0 := by rw [heqB]
              omega
            · exact Or.inl ⟨range_before asm o, hmemB, by omega⟩
          · rcases Nat.lt_or_ge i (o + bs.length) with hin | hin
            · exact Or.inr ⟨hio, hin⟩
            · rcases range_after_spec asm o hinv.ordered with ⟨heqA, _⟩ | ⟨hmemA, _, _⟩
              · have h2 : (range_after asm o).2 = 0 := by rw [heqA]
                omega
              · exact Or.inl ⟨range_after asm o, hmemA, by omega⟩)
        (by constructor <;> omega)
      simp only [add_fragment, hcond, Bool.false_eq_true, if_false, hb', if_true, ha']
      exact ⟨by simp, hprops.1, hprops.2, fun j hj => hw1 j hj, fun i hi => hw2 i hi⟩
    · -- merge with the range before only
      have hb' : ((range_before asm o).1 + (range_before asm o).2 == o) = true := by
        simp [hb]
      have ha' : ((range_before asm o).1 + (bs.length + (range_before asm o).2)
          == (range_after asm o).1) = false := by
        simp only [beq_eq_false_iff_ne, ne_eq]
        omega
      have hsurvive : ∀ r ∈ map_remove (range_before asm o) asm.map,
          r ∈ asm.map ∧ r ≠ range_before asm o := by
        intro r hr
        refine ⟨mem_of_mem_map_remove hr, ?_⟩
        intro hc
        rw [hc] at hr
        exact not_mem_map_remove _ _ hnd hr
      have hprops := assembled_props size asm o bs hinv hn hbound
        ((range_before asm o).1, bs.length + (range_before asm o).2)
        (map_remove (range_before asm o) asm.map)
        (by omega)
        (by
          show (range_before asm o).1 + (bs.length + (range_before asm o).2) ≤ size
          omega)
        (map_remove_sublist _ _)
        (by
          intro r hr
          by_cases hrB : r = range_before asm o
          · right
            rw [hrB]
            constructor
            · exact Nat.le_refl _
            · show (range_before asm o).1 + (range_before asm o).2
                ≤ (range_before asm o).1 + (bs.length + (range_before asm o).2)
              omega
          · exact Or.inl (mem_map_remove_of_ne hr hrB))
        (by
          intro r hr
          obtain ⟨hrm, hrB⟩ := hsurvive r hr
          rcases hrdisj r hrm with hL | hR
          · left
            exact left_sep_merged hinv hb hrm hL hrB
          · right
            have := right_sep_unmerged hinv (by omega) hAge hrm hR
            show (range_before asm o).1 + (bs.length + (range_before asm o).2) < r.1
            omega)
        (by
          intro i hi1 hi2
          rcases Nat.lt_or_ge i o with hio | hio
          · rcases range_before_spec asm o hinv.ordered with ⟨heqB, _⟩ | ⟨hmemB, _, _⟩
            · have h1 : (range_before asm o).1 = 0 := by rw [heqB]
              have h2 : (range_before asm o).2 = 0 := by rw [heqB]
              omega
            · exact Or.inl ⟨range_before asm o, hmemB, by omega⟩
          · refine Or.inr ⟨hio, ?_⟩
            have hi2' : i < (range_before asm o).1 + (bs.length + (range_before asm o).2) :=
              hi2
            omega)
        (by constructor <;> omega)
      simp only [add_fragment, hcond, Bool.false_eq_true, if_false, hb', if_true, ha']
      exact ⟨by simp, hprops.1, hprops.2, fun j hj => hw1 j hj, fun i hi => hw2 i hi⟩
  · by_cases ha : o + bs.length = (range_after asm o).1
    · -- merge with the range after only
      have hb' : ((range_before asm o).1 + (range_before asm o).2 == o) = false := by
        simp only [beq_eq_false_iff_ne, ne_eq]
        exact hb
      have ha' : (o + bs.length == (range_after asm o).1) = true := by
        simp only [beq_iff_eq]
        exact ha
      have hsurvive : ∀ r ∈ map_remove (range_after asm o) asm.map,
          r ∈ asm.map ∧ r ≠ range_after asm o := by
        intro r hr
        refine ⟨mem_of_mem_map_remove hr, ?_⟩
        intro hc
        rw [hc] at hr
        exact not_mem_map_remove _ _ hnd hr
      have hprops := assembled_props size asm o bs hinv hn hbound
        (o, bs.length + (range_after asm o).2)
        (map_remove (range_after asm o) asm.map)
        (by omega)
        (by
          show o + (bs.length + (range_after asm o).2) ≤ size
          rcases range_after_spec asm o hinv.ordered with ⟨heqA, _⟩ | ⟨hmemA, _, _⟩
          · have h1 : (range_after asm o).1 = asm.data.length := by rw [heqA]
            have h2 : (range_after asm o).2 = 0 := by rw [heqA]
            have h3 := hinv.dataLen
            omega
          · have := hinv.bounded _ hmemA
            omega)
        (map_remove_sublist _ _)
        (by
          intro r hr
          by_cases hrA : r = range_after asm o
          · right
            rw [hrA]
            constructor
            · show o ≤ (range_after asm o).1
              omega
            · show (range_after asm o).1 + (range_after asm o).2
                ≤ o + (bs.length + (range_after asm o).2)
              omega
          · exact Or.inl (mem_map_remove_of_ne hr hrA))
        (by
          intro r hr
          obtain ⟨hrm, hrA⟩ := hsurvive r hr
          rcases hrdisj r hrm with hL | hR
          · left
            have := left_sep_unmerged hinv hb hBle hrm hL
            show r.1 + r.2 < o
            omega
          · right
            have := right_sep_merged hinv hrm (by omega) hrA
            show o + (bs.length + (range_after asm o).2) < r.1
            omega)
        (by
          intro i hi1 hi2
          rcases Nat.lt_or_ge i (o + bs.length) with hin | hin
          · exact Or.inr ⟨hi1, hin⟩
          · rcases range_after_spec asm o hinv.ordered with ⟨heqA, _⟩ | ⟨hmemA, _, _⟩
            · have h2 : (range_after asm o).2 = 0 := by rw [heqA]
              have hi2' : i < o + (bs.length + (range_after asm o).2) := hi2
              omega
            · exact Or.inl ⟨range_after asm o, hmemA, by omega⟩)
        (by constructor <;> omega)
      simp only [add_fragment, hcond, Bool.false_eq_true, if_false, hb', if_true, ha']
      exact ⟨by simp, hprops.1, hprops.2, fun j hj => hw1 j hj, fun i hi => hw2 i hi⟩
    · -- no merge
      have hb' : ((range_before asm o).1 + (range_before asm o).2 == o) = false := by
        simp only [beq_eq_false_iff_ne, ne_eq]
        exact hb
      have ha' : (o + bs.length == (range_after asm o).1) = false := by
        simp only [beq_eq_false_iff_ne, ne_eq]
        exact ha
      have hprops := assembled_props size asm o bs hinv hn hbound
        (o, bs.length) asm.map
        (by omega)
        (by show o + bs.length ≤ size; omega)
        (List.Sublist.refl _)
        (fun r hr => Or.inl hr)
        (by
          intro r hr
          rcases hrdisj r hr with hL | hR
          · left
            exact left_sep_unmerged hinv hb hBle hr hL
          · right
            have := right_sep_unmerged hinv (by omega) hAge hr hR
            show o + bs.length < r.1
            omega)
        (fun i hi1 hi2 => Or.inr ⟨hi1, hi2⟩)
        (by constructor <;> omega)
      simp only [add_fragment, hcond, Bool.false_eq_true, if_false, hb', if_true, ha']
      exact ⟨by simp, hprops.1, hprops.2, fun j hj => hw1 j hj, fun i hi => hw2 i hi⟩

theorem overlap_of_mem_ranges {f g : Nat × List Nat} {i : Nat}
    (hf : inRange f i) (hg : inRange g i) : fragsOverlap f g := by
  unfold inRange at hf hg
  unfold fragsOverlap
  omega

theorem add_fragments_spec {size : Nat} : ∀ (fs : List (Nat × List Nat)) (asm : ChunkAssembler),
    AsmInv size asm →
    (∀ f ∈ fs, f.2 ≠ []) →
    (∀ f ∈ fs, f.1 + f.2.length ≤ size) →
    fs.Pairwise (fun f g => ¬fragsOverlap f g) →
    (∀ f ∈ fs, ∀ i, coveredBy asm i → ¬inRange f i) →
    (add_fragments asm fs).2 = true
    ∧ AsmInv size (add_fragments asm fs).1
    ∧ (∀ i, coveredBy (add_fragments asm fs).1 i
        ↔ (coveredBy asm i ∨ ∃ f ∈ fs, inRange f i))
    ∧ (∀ f ∈ fs, ∀ j, j < f.2.length →
        (add_fragments asm fs).1.data[f.1 + j]? = f.2[j]?)
    ∧ (∀ i, (¬∃ f ∈ fs, inRange f i) →
        (add_fragments asm fs).1.data[i]? = asm.data[i]?) := by
  intro fs
  induction fs with
  | nil =>
    intro asm hinv _ _ _ _
    refine ⟨rfl, hinv, ?_, ?_, ?_⟩
    · intro i
      simp [add_fragments]
    · intro f hf
      cases hf
    · intro i _
      rfl
  | cons f fs ih =>
    intro asm hinv hne hbnd hdisj hcovf
    have hstep := add_fragment_success hinv (hne f (List.mem_cons_self _ _))
      (hbnd f (List.mem_cons_self _ _))
      (fun i hci => hcovf f (List.mem_cons_self _ _) i hci)
    have hdisjhead : ∀ g ∈ fs, ¬fragsOverlap f g :=
      fun g hg => List.rel_of_pairwise_cons hdisj hg
    have hih := ih (add_fragment asm f.1 f.2).1 hstep.2.1
      (fun g hg => hne g (List.mem_cons_of_mem _ hg))
      (fun g hg => hbnd g (List.mem_cons_of_mem _ hg))
      (List.Pairwise.of_cons hdisj)
      (by
        intro g hg i hci
        rcases (hstep.2.2.1 i).mp hci with hold | hinf
        · exact hcovf g (List.mem_cons_of_mem _ hg) i hold
        · intro hgi
          exact hdisjhead g hg (overlap_of_mem_ranges hinf hgi))
    have hrun : add_fragments asm (f :: fs)
        = add_fragments (add_fragment asm f.1 f.2).1 fs := by
      rw [add_fragments, hstep.1]
      simp
    rw [hrun]
    refine ⟨hih.1, hih.2.1, ?_, ?_, ?_⟩
    · intro i
      rw [hih.2.2.1 i, hstep.2.2.1 i]
      simp only [List.mem_cons]
      constructor
      · rintro ((hold | hinf) | ⟨g, hg, hgi⟩)
        · exact Or.inl hold
        · exact Or.inr ⟨f, Or.inl rfl, hinf⟩
        · exact Or.inr ⟨g, Or.inr hg, hgi⟩
      · rintro (hold | ⟨g, (rfl | hg), hgi⟩)
        · exact Or.inl (Or.inl hold)
        · exact Or.inl (Or.inr hgi)
        · exact Or.inr ⟨g, hg, hgi⟩
    · intro g hg j hj
      rcases List.mem_cons.mp hg with rfl | hgtail
      · have hnotail : ¬∃ h ∈ fs, inRange h (g.1 + j) := by
          rintro ⟨h, hh, hhi⟩
          exact hdisjhead h hh
            (overlap_of_mem_ranges ⟨Nat.le_add_right _ _, by omega⟩ hhi)
        rw [hih.2.2.2.2 (g.1 + j) hnotail]
        exact hstep.2.2.2.1 j hj
      · exact hih.2.2.2.1 g hgtail j hj
    · intro i hnone
      have hnotail : ¬∃ g ∈ fs, inRange g i := by
        rintro ⟨g, hg, hgi⟩
        exact hnone ⟨g, List.mem_cons_of_mem _ hg, hgi⟩
      have hnof : ¬(f.1 ≤ i ∧ i < f.1 + f.2.length) := by
        intro hc
        exact hnone ⟨f, List.mem_cons_self _ _, hc⟩
      rw [hih.2.2.2.2 i hnotail]
      exact hstep.2.2.2.2 i hnof

theorem is_complete_iff (asm : ChunkAssembler) :
    is_complete asm = true ↔ asm.map = [(0, asm.data.length)] := by
  cases hm : asm.map with
  | nil => simp [is_complete, hm]
  | cons r rest =>
    cases rest with
    | nil => simp [is_complete, hm]
    | cons s rest2 => simp [is_complete, hm]

theorem complete_of_covered {size : Nat} {asm : ChunkAssembler}
    (hinv : AsmInv size asm) (hpos : 0 < size)
    (hcov : ∀ i, i < size → coveredBy asm i) :
    asm.map = [(0, size)] := by
  cases hm : asm.map with
  | nil =>
    obtain ⟨r, hr, _⟩ := hcov 0 hpos
    rw [hm] at hr
    cases hr
  | cons r rest =>
    cases rest with
    | nil =>
      obtain ⟨r0, hr0, h0⟩ := hcov 0 hpos
      obtain ⟨r1, hr1, h1⟩ := hcov (size - 1) (by omega)
      rw [hm] at hr0 hr1
      have he0 : r0 = r := by simpa using hr0
      have he1 : r1 = r := by simpa using hr1
      rw [he0] at h0
      rw [he1] at h1
      have hb := hinv.bounded r (by rw [hm]; exact List.mem_cons_self _ _)
      have hre : r = (0, size) := by
        have h2 : r.1 = 0 := by omega
        have h3 : r.2 = size := by omega
        exact Prod.ext h2 h3
      rw [hre]
    | cons s rest2 =>
      exfalso
      have hrm : r ∈ asm.map := by rw [hm]; exact List.mem_cons_self _ _
      have hsm : s ∈ asm.map := by
        rw [hm]
        exact List.mem_cons_of_mem _ (List.mem_cons_self _ _)
      have hord : (r :: s :: rest2).Pairwise (fun a b => pairLt a b = true) :=
        hm ▸ hinv.ordered
      have hrs : pairLt r s = true :=
        List.rel_of_pairwise_cons hord (List.mem_cons_self _ _)
      have hsep := hinv.sep r hrm s hsm (pairLt_ne hrs)
      have hposs := hinv.pos s hsm
      have hgap : r.1 + r.2 < s.1 := by
        rw [pairLt_iff] at hrs
        omega
      have hbs := hinv.bounded s hsm
      obtain ⟨t, ht, hti⟩ := hcov (r.1 + r.2) (by omega)
      rw [hm] at ht
      rcases List.mem_cons.mp ht with rfl | ht2
      · omega
      rcases List.mem_cons.mp ht2 with rfl | ht3
      · omega
      · have hst : pairLt s t = true :=
          List.rel_of_pairwise_cons (List.Pairwise.of_cons hord) ht3
        rw [pairLt_iff] at hst
        omega

def consecutiveFrom : Nat → List (Nat × List Nat) → Prop
  | _, [] => True
  | base, f :: fs => f.1 = base ∧ consecutiveFrom (f.1 + f.2.length) fs

theorem chain_of_sorted_cover : ∀ (gs : List (Nat × List Nat)) (base size : Nat),
    base ≤ size →
    gs.Pairwise fragLe →
    gs.Pairwise (fun f g => ¬fragsOverlap f g) →
    (∀ f ∈ gs, f.2 ≠ []) →
    (∀ i, (base ≤ i ∧ i < size) ↔ ∃ f ∈ gs, inRange f i) →
    consecutiveFrom base gs ∧ (gs.map fun f => f.2.length).sum = size - base := by
  intro gs
  induction gs with
  | nil =>
    intro base size hbs _ _ _ hcov
    refine ⟨trivial, ?_⟩
    have hempty : ¬(base ≤ base ∧ base < size) := by
      intro hc
      obtain ⟨f, hf, _⟩ := (hcov base).mp hc
      cases hf
    simp
    omega
  | cons g gs ih =>
    intro base size hbs hsort hdisj hne hcov
    have hgpos : 0 < g.2.length := List.length_pos.mpr (hne g (List.mem_cons_self _ _))
    have hg1 : base ≤ g.1 ∧ g.1 < size :=
      (hcov g.1).mpr ⟨g, List.mem_cons_self _ _, Nat.le_refl _, by omega⟩
    have hbase : base < size := by omega
    obtain ⟨f, hf, hfi⟩ := (hcov base).mp ⟨Nat.le_refl base, hbase⟩
    have hgbase : g.1 = base := by
      unfold inRange at hfi
      rcases List.mem_cons.mp hf with rfl | hftail
      · omega
      · have hle : fragLe g f := List.rel_of_pairwise_cons hsort hftail
        have : g.1 ≤ f.1 := hle
        omega
    have hgend : g.1 + g.2.length ≤ size := by
      have := (hcov (g.1 + g.2.length - 1)).mpr
        ⟨g, List.mem_cons_self _ _, by omega, by omega⟩
      omega
    have hcov' : ∀ i, (g.1 + g.2.length ≤ i ∧ i < size) ↔ ∃ f ∈ gs, inRange f i := by
      intro i
      constructor
      · rintro ⟨hi1, hi2⟩
        obtain ⟨f', hf', hfi'⟩ := (hcov i).mp ⟨by omega, hi2⟩
        rcases List.mem_cons.mp hf' with rfl | hftail
        · unfold inRange at hfi'
          omega
        · exact ⟨f', hftail, hfi'⟩
      · rintro ⟨f', hf', hfi'⟩
        have hio : base ≤ i ∧ i < size :=
          (hcov i).mpr ⟨f', List.mem_cons_of_mem _ hf', hfi'⟩
        refine ⟨?_, hio.2⟩
        by_contra hc
        push_neg at hc
        have hig : inRange g i := ⟨by omega, by omega⟩
        exact (List.rel_of_pairwise_cons hdisj hf')
          (overlap_of_mem_ranges hig hfi')
    obtain ⟨hcons, hsum⟩ := ih (g.1 + g.2.length) size hgend
      (List.Pairwise.of_cons hsort) (List.Pairwise.of_cons hdisj)
      (fun f' hf' => hne f' (List.mem_cons_of_mem _ hf')) hcov'
    refine ⟨⟨hgbase, hcons⟩, ?_⟩
    simp only [List.map_cons, List.sum_cons]
    omega

theorem flatten_of_consecutive : ∀ (gs : List (Nat × List Nat)) (base : Nat) (d : List Nat),
    consecutiveFrom base gs →
    (∀ f ∈ gs, ∀ j, j < f.2.length → d[f.1 + j]? = f.2[j]?) →
    base + (gs.map fun f => f.2.length).sum = d.length →
    (gs.map Prod.snd).flatten = d.drop base := by
  intro gs
  induction gs with
  | nil =>
    intro base d _ _ hlen
    simp only [List.map_nil, List.flatten_nil]
    simp at hlen
    exact (List.drop_eq_nil_of_le (by omega)).symm
  | cons g gs ih =>
    intro base d hcons hdata hlen
    obtain ⟨hg1, hcons'⟩ := hcons
    simp only [List.map_cons, List.flatten_cons]
    have hg2 : g.2 = (d.drop base).take g.2.length := by
      apply List.ext_getElem?
      intro n
      by_cases hn : n < g.2.length
      · rw [List.getElem?_take]
        simp only [hn, if_true, List.getElem?_drop]
        rw [← hg1]
        exact (hdata g (List.mem_cons_self _ _) n hn).symm
      · rw [List.getElem?_take]
        simp only [hn, if_false]
        exact List.getElem?_eq_none (by omega)
    have htail : (gs.map Prod.snd).flatten = d.drop (base + g.2.length) := by
      apply ih (base + g.2.length) d (by rw [← hg1]; exact hcons')
        (fun f' hf' => hdata f' (List.mem_cons_of_mem _ hf'))
      simp only [List.map_cons, List.sum_cons] at hlen
      omega
    rw [hg2, htail, ← List.drop_drop]
    exact List.take_append_drop _ _

theorem fragsOverlap_symm {f g : Nat × List Nat} (h : fragsOverlap f g) :
    fragsOverlap g f := by
  unfold fragsOverlap at h ⊢
  omega

/-- C5 counterexample: size 3; the fragments `(1, [])` and `(0, [10, 11, 12])`
are pairwise non-overlapping (in the strong, any-two sense), their ranges
cover exactly `[0, 3)`, yet adding them in this order makes the second
`add_fragment` fail: the zero-length fragment leaves a stored range `(1, 0)`
that blocks the later insertion. -/
theorem assembler_zero_len_frag :
    (∀ f ∈ [((1 : Nat), ([] : List Nat)), ((0 : Nat), [10, 11, 12])],
        ∀ g ∈ [((1 : Nat), ([] : List Nat)), ((0 : Nat), [10, 11, 12])],
          f ≠ g → ¬fragsOverlap f g)
    ∧ (∀ i, i < 3 →
        ∃ f ∈ [((1 : Nat), ([] : List Nat)), ((0 : Nat), [10, 11, 12])], inRange f i)
    ∧ (∀ f ∈ [((1 : Nat), ([] : List Nat)), ((0 : Nat), [10, 11, 12])],
        f.1 + f.2.length ≤ 3)
    ∧ (add_fragments (ChunkAssembler.new 3)
        [((1 : Nat), ([] : List Nat)), ((0 : Nat), [10, 11, 12])]).2 = false := by
  decide

/-- C5 (amended): for a positive chunk size and any sequence of *nonempty*
pairwise non-overlapping fragments whose ranges cover exactly `[0, size)`,
adding them in any order succeeds at every step, leaves `is_complete`
true, and `complete` returns the concatenation of the fragments' bytes in
offset order; moreover `is_complete` holds exactly when the single stored
range `(0, size)` covers the whole buffer. -/
theorem assembler_reassembles (size : Nat) (frags : List (Nat × List Nat))
    (hpos : 0 < size)
    (hne : ∀ f ∈ frags, f.2 ≠ [])
    (hdisj : frags.Pairwise fun f g => ¬fragsOverlap f g)
    (hcov : ∀ i, i < size → ∃ f ∈ frags, inRange f i)
    (hbnd : ∀ f ∈ frags, f.1 + f.2.length ≤ size) :
    (add_fragments (ChunkAssembler.new size) frags).2 = true
    ∧ is_complete (add_fragments (ChunkAssembler.new size) frags).1 = true
    ∧ ChunkAssembler.complete (add_fragments (ChunkAssembler.new size) frags).1
        = some (((sortFragments frags).map Prod.snd).flatten)
    ∧ (∀ asm : ChunkAssembler, is_complete asm = true ↔ asm.map = [(0, asm.data.length)]) := by
  have hinv0 : AsmInv size (ChunkAssembler.new size) := by
    refine ⟨by simp [ChunkAssembler.new], ?_, ?_, ?_, ?_⟩
    · simp [ChunkAssembler.new]
    · intro r hr
      cases hr
    · intro r hr
      cases hr
    · intro a ha
      cases ha
  have hfold := add_fragments_spec frags (ChunkAssembler.new size) hinv0 hne hbnd hdisj
    (by
      rintro f hf i ⟨r, hr, _⟩
      cases hr)
  have hiff : ∀ i, coveredBy (add_fragments (ChunkAssembler.new size) frags).1 i ↔ i < size := by
    intro i
    rw [hfold.2.2.1 i]
    constructor
    · rintro (⟨r, hr, _⟩ | ⟨f, hf, hfi⟩)
      · cases hr
      · have := hbnd f hf
        unfold inRange at hfi
        omega
    · intro hi
      exact Or.inr (hcov i hi)
  have hmap : (add_fragments (ChunkAssembler.new size) frags).1.map = [(0, size)] :=
    complete_of_covered hfold.2.1 hpos (fun i hi => (hiff i).mpr hi)
  have hlen : (add_fragments (ChunkAssembler.new size) frags).1.data.length = size :=
    hfold.2.1.dataLen
  have hic : is_complete (add_fragments (ChunkAssembler.new size) frags).1 = true := by
    rw [is_complete_iff, hmap, hlen]
  have hperm : (sortFragments frags).Perm frags := List.perm_insertionSort fragLe frags
  have hchain := chain_of_sorted_cover (sortFragments frags) 0 size (Nat.zero_le _)
    (List.sorted_insertionSort fragLe frags)
    ((List.Perm.pairwise_iff
        (fun hab => fun hov => hab (fragsOverlap_symm hov)) hperm.symm).mp hdisj)
    (fun f hf => hne f (hperm.mem_iff.mp hf))
    (by
      intro i
      constructor
      · rintro ⟨_, hi⟩
        obtain ⟨f, hf, hfi⟩ := hcov i hi
        exact ⟨f, hperm.mem_iff.mpr hf, hfi⟩
      · rintro ⟨f, hf, hfi⟩
        have := hbnd f (hperm.mem_iff.mp hf)
        unfold inRange at hfi
        exact ⟨Nat.zero_le _, by omega⟩)
  have hflat := flatten_of_consecutive (sortFragments frags) 0
    (add_fragments (ChunkAssembler.new size) frags).1.data hchain.1
    (fun f hf j hj => hfold.2.2.2.1 f (hperm.mem_iff.mp hf) j hj)
    (by rw [hchain.2, hlen]; omega)
  refine ⟨hfold.1, hic, ?_, fun asm => is_complete_iff asm⟩
  rw [ChunkAssembler.complete, if_pos hic, hflat, List.drop_zero]

/-- Witness for the amended C5 theorem: size 4 assembled from the
out-of-order fragments `(2, [7, 8])` and `(0, [5, 6])`. -/
theorem assembler_reassembles_witness :
    (0 < 4
    ∧ (∀ f ∈ [((2 : Nat), [7, 8]), ((0 : Nat), [5, 6])], f.2 ≠ ([] : List Nat))
    ∧ List.Pairwise (fun f g => ¬fragsOverlap f g) [((2 : Nat), [7, 8]), ((0 : Nat), [5, 6])]
    ∧ (∀ i, i < 4 → ∃ f ∈ [((2 : Nat), [7, 8]), ((0 : Nat), [5, 6])], inRange f i)
    ∧ (∀ f ∈ [((2 : Nat), [7, 8]), ((0 : Nat), [5, 6])], f.1 + f.2.length ≤ 4))
    ∧ ((add_fragments (ChunkAssembler.new 4) [((2 : Nat), [7, 8]), ((0 : Nat), [5, 6])]).2 = true
    ∧ is_complete
        (add_fragments (ChunkAssembler.new 4) [((2 : Nat), [7, 8]), ((0 : Nat), [5, 6])]).1
        = true
    ∧ ChunkAssembler.complete
        (add_fragments (ChunkAssembler.new 4) [((2 : Nat), [7, 8]), ((0 : Nat), [5, 6])]).1
        = some (((sortFragments [((2 : Nat), [7, 8]), ((0 : Nat), [5, 6])]).map Prod.snd).flatten)
    ∧ (∀ asm : ChunkAssembler, is_complete asm = true ↔ asm.map = [(0, asm.data.length)])) :=
  ⟨⟨by decide, by decide, by decide, by decide, by decide⟩,
    assembler_reassembles 4 [((2 : Nat), [7, 8]), ((0 : Nat), [5, 6])]
      (by decide) (by decide) (by decide) (by decide) (by decide)⟩

end Multicats
